import Mathlib

/-!
# fpROC: bootstrap partial-AUC ratio test (src/trapezoid_rule.cpp)

A shallow embedding of the C++ source.

Modelling conventions
* A finite `double` is a rational number; arithmetic is exact, except in the derived sample
  size (lines 508-510), where the rounding of the two double operations decides the integer
  result and is modelled by `round_double`.  A `double` that may be non-finite (an input
  vector before cleaning, a cell of a result row) is a `Dbl`.
* `arma::vec` is a `List ℚ`; `arma::mat` is `Mat`, stored column by column.
* `Rcpp::stop` is `Except.error` carrying the message of the source.
* The random permutation drawn by `arma::randperm` is an explicit argument (`rowsID`), so a
  statement quantified over `rowsID` holds for every drawn sample.
* The OpenMP loops are modelled by their sequential semantics.
* A result table (`iterations` x 4) is the list of its rows, each row a list of `Dbl`.
-/

/-! ## Numeric containers -/

/-- A `double` as the source distinguishes it: a finite value, the missing marker
`NA_REAL` (a NaN), or one of the two infinities. -/
inductive Dbl where
  | fin (q : ℚ)
  | na
  | pinf
  | ninf
deriving DecidableEq

/-- The missing-value marker of R, `NA_REAL`. -/
def NA_REAL : Dbl := Dbl.na

/-- The constant `std::numeric_limits<double>::epsilon()`, which is 2^-52. -/
def epsilon : ℚ := 1 / 2 ^ 52

/-- The expression `v.elem(arma::find_finite(v))`: the finite entries of `v`, in order. -/
def finite_elems : List Dbl → List ℚ
  | [] => []
  | Dbl.fin q :: t => q :: finite_elems t
  | _ :: t => finite_elems t

/-- The method `arma::vec::min()`; the source only calls it on non-empty vectors. -/
def vec_min : List ℚ → ℚ
  | [] => 0
  | a :: t => t.foldl min a

/-- The method `arma::vec::max()`; the source only calls it on non-empty vectors. -/
def vec_max : List ℚ → ℚ
  | [] => 0
  | a :: t => t.foldl max a

/-- A read `ptr[i]` through the pointer returned by `memptr()`.  Inside the vector it is the
element; past the end the source has no defined value and the model reads 0. -/
def memptr (v : List ℚ) (i : Nat) : ℚ := v.getD i 0

/-- The indexing `v.elem(idx)`. -/
def elem (v : List ℚ) (idx : List Nat) : List ℚ := idx.map (fun i => v.getD i 0)

/-- An `arma::mat` in column-major order: `cols` lists the `n_cols` columns, each of
`n_rows` entries. -/
structure Mat where
  n_rows : Nat
  n_cols : Nat
  cols : List (List ℚ)

/-- The constructor `arma::mat(n_rows, n_cols)`; every entry is overwritten before use and
starts at 0 here. -/
def Mat.create (n_rows n_cols : Nat) : Mat :=
  ⟨n_rows, n_cols, List.replicate n_cols (List.replicate n_rows 0)⟩

/-- The statement `M.col(i).fill(v)`. -/
def Mat.fill_col (M : Mat) (i : Nat) (v : ℚ) : Mat :=
  { M with cols := M.cols.modify (fun _ => List.replicate M.n_rows v) i }

/-- The column view `M.col(i)`. -/
def Mat.col (M : Mat) (i : Nat) : List ℚ := M.cols.getD i []

/-! ## trap_roc (lines 40-53) -/

/-- The function `trap_roc`: 0 for fewer than two points, else half of the sum accumulated by
the loop `for (i = 1; i < n; ++i)`. -/
def trap_roc (x y : List ℚ) : ℚ :=
  let n := x.length
  if n < 2 then 0
  else
    let sum := (List.range' 1 (n - 1)).foldl
      (fun sum i => sum + (memptr x i - memptr x (i - 1)) * (memptr y i + memptr y (i - 1))) 0
    (1 / 2) * sum

/-! ## Bin-comparison template (lines 162-169 and 512-516) -/

/-- The loop `for (i = 0; i < n_bins; ++i) big_classpixels.col(i).fill(n_bins - i)` run on a
fresh `arma::mat(n_samp, n_bins)`. -/
def fill_template (n_samp : Nat) (n_bins : Int) : Mat :=
  (List.range n_bins.toNat).foldl
    (fun (M : Mat) (i : Nat) => M.fill_col i ((n_bins - (i : Int) : Int) : ℚ))
    (Mat.create n_samp n_bins.toNat)

/-! ## Binning -/

/-- The body of the binning loop of `bigclass_matrix` (lines 140-143), without clamping. -/
def bigclass_bin (pred_min scale v : ℚ) : ℚ :=
  let val := (v - pred_min) * scale
  (⌊val⌋ : ℚ) + 1

/-- The lambda given to `binned.transform` in `auc_parallel` (lines 467-471): floor, clamp
into [0, n_bins - 1], add one. -/
def clamp_bin (n_bins : Int) (val : ℚ) : ℚ :=
  let val : ℚ := (⌊val⌋ : ℚ)
  let val : ℚ := max 0 (min ((n_bins - 1 : Int) : ℚ) val)
  val + 1

/-- The conversion of a `double` to an integer done by `arma::conv_to<arma::ivec>::from`
(truncation toward zero). -/
def conv_to_int (q : ℚ) : Int := if 0 ≤ q then ⌊q⌋ else ⌈q⌉

/-- One pass of the histogram loop of `auc_parallel` (lines 487-493). -/
def hist_step (n_bins : Int) (counts : List Int) (val : Int) : List Int :=
  if 0 ≤ val ∧ val < n_bins then counts.modify (· + 1) (n_bins - 1 - val).toNat else counts

/-- The running sums of `arma::cumsum`, started from `acc`. -/
def cumsum_from (acc : ℚ) : List ℚ → List ℚ
  | [] => []
  | a :: t => (acc + a) :: cumsum_from (acc + a) t

/-- The function `arma::cumsum` on a vector. -/
def cumsum (v : List ℚ) : List ℚ := cumsum_from 0 v

/-! ## bigclass_matrix (lines 104-170) -/

/-- The function `bigclass_matrix`.  The test predictions are not cleaned by the source, so
the model takes them finite.  The histogram of lines 150-161 does not reach the returned
value and is left out.  For a negative `n_bins` the Armadillo constructors of the source
fail; the statements about this function assume `0 ≤ n_bins`. -/
def bigclass_matrix (test_prediction : List ℚ) (prediction : List Dbl) (n_bins : Int) :
    Except String Mat :=
  if prediction.length = 0 ∨ test_prediction.length = 0 then
    Except.error "Input vectors cannot be empty"
  else
    let pred_clean := finite_elems prediction
    if pred_clean.length = 0 then
      Except.error "No finite values in prediction vector"
    else
      let nprediction := pred_clean.length
      let combined_pred := pred_clean ++ test_prediction
      let pred_min := vec_min combined_pred
      let pred_max := vec_max combined_pred
      let range := pred_max - pred_min
      if range ≤ epsilon then
        Except.error "All prediction values are identical"
      else
        let scale := ((n_bins : ℚ) - 1) / range
        let pred_binned := combined_pred.map (bigclass_bin pred_min scale)
        let test_pred_binned := pred_binned.drop nprediction
        let n_samp := test_pred_binned.length
        Except.ok (fill_template n_samp n_bins)

/-! ## calc_aucDF_arma (lines 220-290) -/

/-- One column of the omission matrix: `conv_to<vec>::from(col > sampled_pred)`. -/
def omission_col (col sampled_pred : List ℚ) : List ℚ :=
  List.zipWith (fun c s => if c > s then (1 : ℚ) else 0) col sampled_pred

/-- The vector `1.0 - arma::mean(omission_matrix, 0).t()`: one entry per template column,
the column sum divided by the number of rows. -/
def sensibility (big_classpixels : Mat) (sampled_pred : List ℚ) : List ℚ :=
  (List.range big_classpixels.n_cols).map
    (fun i => 1 - (omission_col (big_classpixels.col i) sampled_pred).sum
      / (big_classpixels.n_rows : ℚ))

/-- The call `arma::find(v > t)`: the indices of the entries above `t`, ascending. -/
def find_gt (v : List ℚ) (t : ℚ) : List Nat :=
  (List.range v.length).filter (fun i => decide (v.getD i 0 > t))

/-- The statement `tbl = tbl.rows(arma::sort_index(tbl.col(0)))`: rows in ascending order of
the first column.  `arma::sort_index` leaves the order of rows with equal keys unspecified;
the model takes the order of a stable sort, and the general statements on sorted tables
below use only that the table is ascending in the first column. -/
def sort_rows (tbl : List (ℚ × ℚ)) : List (ℚ × ℚ) :=
  tbl.insertionSort (fun a b => a.1 ≤ b.1)

/-- The function `calc_aucDF_arma`; `rowsID` is the value of
`arma::randperm(test_prediction.n_elem, n_samp)`.  The result is the single row of the
returned 1 x 4 matrix. -/
def calc_aucDF_arma (big_classpixels : Mat) (fractional_area test_prediction : List ℚ)
    (rowsID : List Nat) (error_sens : ℚ) (compute_full_auc : Bool) : List Dbl :=
  let sampled_pred := elem test_prediction rowsID
  let sens := sensibility big_classpixels sampled_pred
  let keep_idx_partial := find_gt sens error_sens
  if keep_idx_partial.length < 2 then
    List.replicate 4 NA_REAL
  else
    let xyTable_partial :=
      sort_rows ((elem fractional_area keep_idx_partial).zip (elem sens keep_idx_partial))
    let auc_pmodel := trap_roc (List.map Prod.fst xyTable_partial) (List.map Prod.snd xyTable_partial)
    let auc_prand := trap_roc (List.map Prod.fst xyTable_partial) (List.map Prod.fst xyTable_partial)
    if auc_pmodel = 0 ∨ auc_prand = 0 then
      List.replicate 4 (Dbl.fin 0)
    else
      let auc_ratio :=
        if |auc_prand| > epsilon then Dbl.fin (auc_pmodel / auc_prand) else NA_REAL
      let auc_complete :=
        if compute_full_auc then
          let xyTable_full := sort_rows (fractional_area.zip sens)
          Dbl.fin (trap_roc (List.map Prod.fst xyTable_full) (List.map Prod.snd xyTable_full))
        else NA_REAL
      [auc_complete, Dbl.fin auc_pmodel, Dbl.fin auc_prand, auc_ratio]

/-! ## iterate_aucDF_arma_opt (lines 332-353) -/

/-- The function `iterate_aucDF_arma_opt`: row `i` of the table is the row of iteration `i`,
whose drawn indices are `draws i`. -/
def iterate_aucDF_arma_opt (big_classpixels : Mat) (fractional_area test_prediction : List ℚ)
    (draws : Nat → List Nat) (error_sens : ℚ) (n_iterations : Nat) (compute_full_auc : Bool) :
    List (List Dbl) :=
  (List.range n_iterations).map (fun i =>
    calc_aucDF_arma big_classpixels fractional_area test_prediction (draws i) error_sens
      compute_full_auc)

/-! ## Double rounding in the derived sample size (lines 508-510) -/

/-- Rounding of a real number to the nearest integer, ties to the even integer. -/
def round_half_even (q : ℚ) : Int :=
  let f := ⌊q⌋
  if q - (f : ℚ) < 1 / 2 then f
  else if q - (f : ℚ) > 1 / 2 then f + 1
  else if f % 2 = 0 then f else f + 1

/-- The exponent of the binade of a positive value in IEEE-754 binary64: the largest e with
2^e <= q, and -1022 in the subnormal range. -/
def double_exponent (q : ℚ) : Int := max (Int.log 2 q) (-1022)

/-- The `double` returned by one arithmetic operation whose exact result is `q`: round to
nearest, ties to even, with a 53-bit significand.  Overflow to infinity is not modelled. -/
def round_double (q : ℚ) : ℚ :=
  let ulp : ℚ := (2 : ℚ) ^ (double_exponent |q| - 52)
  (round_half_even (q / ulp) : ℚ) * ulp

/-- The conversion `static_cast<int>` of an integral `double`: the value itself when it fits
a 32-bit int.  Outside that range the source has no defined value and the model wraps
modulo 2^32; the statements on the sample size stay inside the range. -/
def static_cast_int (z : Int) : Int := (z + 2 ^ 31) % 2 ^ 32 - 2 ^ 31

/-! ## auc_parallel (lines 426-521) -/

/-- The values `auc_parallel` hands to `iterate_aucDF_arma_opt` at line 519. -/
structure Setup where
  big_classpixels : Mat
  percent : List ℚ
  test_binned : List ℚ
  n_samp : Int
  error_sens : ℚ

/-- Lines 434-516 of `auc_parallel`: validation, cleaning, clamped binning, histogram,
fractional area, sample size and template.  In the sample size the quotient
`sample_percentage / 100.0` and its product with `n_elem` are each rounded to a double
before `std::ceil`, as in the source. -/
def auc_parallel_setup (test_prediction prediction : List Dbl)
    (threshold sample_percentage : ℚ) (n_bins : Int) : Except String Setup :=
  if test_prediction.length = 0 ∨ prediction.length = 0 then
    Except.error "Input vectors cannot be empty"
  else if n_bins ≤ 1 then
    Except.error "Number of bins must be greater than 1"
  else
    let test_clean := finite_elems test_prediction
    let pred_clean := finite_elems prediction
    if pred_clean.length = 0 ∨ test_clean.length = 0 then
      Except.error "No finite values in prediction vectors"
    else
      let combined := pred_clean ++ test_clean
      let min_val := vec_min combined
      let max_val := vec_max combined
      let range := max_val - min_val
      if range ≤ epsilon then
        Except.error "All prediction values are identical"
      else
        let scale := ((n_bins : ℚ) - 1) / range
        let binned := (combined.map (fun v => (v - min_val) * scale)).map (clamp_bin n_bins)
        let nprediction := pred_clean.length
        if nprediction ≥ binned.length then
          Except.error "Invalid vector sizes after binning"
        else
          let test_binned := binned.drop nprediction
          let bg_binned := binned.take nprediction
          let bg_binned_int := bg_binned.map (fun b => conv_to_int b - 1)
          let counts := bg_binned_int.foldl (hist_step n_bins) (List.replicate n_bins.toNat 0)
          let csum := cumsum (counts.map (fun (c : Int) => (c : ℚ)))
          let percent :=
            if csum.length > 0 ∧ csum.getLastD 0 > epsilon then
              csum.map (fun c => c / csum.getLastD 0)
            else List.replicate csum.length 0
          let error_sens := 1 - threshold / 100
          let n_samp : Int := max 1 (static_cast_int
            ⌈round_double (round_double (sample_percentage / 100) * (test_binned.length : ℚ))⌉)
          let big_classpixels := fill_template n_samp.toNat n_bins
          Except.ok ⟨big_classpixels, percent, test_binned, n_samp, error_sens⟩

/-- The function `auc_parallel`: the setup, then the bootstrap driver on its values.  The
iteration count is taken non-negative; `draws i` is the permutation drawn in iteration `i`.
The definition describes the calls in which every `arma::randperm(n_elem, n_samp)` returns,
which needs n_samp <= n_elem; a draw that raises (n_samp above n_elem) is not expressed
here, and no statement on such a call is made through this definition. -/
def auc_parallel (test_prediction prediction : List Dbl) (threshold sample_percentage : ℚ)
    (iterations : Nat) (compute_full_auc : Bool) (n_bins : Int) (draws : Nat → List Nat) :
    Except String (List (List Dbl)) :=
  match auc_parallel_setup test_prediction prediction threshold sample_percentage n_bins with
  | Except.error msg => Except.error msg
  | Except.ok s =>
    Except.ok (iterate_aucDF_arma_opt s.big_classpixels s.percent s.test_binned draws
      s.error_sens iterations compute_full_auc)

/-! ## summarize_auc_results (lines 608-643) -/

/-- The finiteness test behind `arma::find_finite`. -/
def Dbl.is_finite : Dbl → Bool
  | Dbl.fin _ => true
  | _ => false

/-- The comparison `d > 1.0` on doubles: false for a NaN, true for +Inf. -/
def Dbl.gt_one : Dbl → Bool
  | Dbl.fin q => decide (q > 1)
  | Dbl.pinf => true
  | _ => false

/-- The column view `auc_results.col(j)` of a table stored row by row (the rows of a result
table have 4 cells). -/
def tbl_col (tbl : List (List Dbl)) (j : Nat) : List Dbl :=
  tbl.map (fun (row : List Dbl) => row.getD j NA_REAL)

/-- The call `arma::find_finite(v)`: the indices of the finite entries, ascending. -/
def find_finite (v : List Dbl) : List Nat :=
  (List.range v.length).filter (fun i => (v.getD i NA_REAL).is_finite)

/-- The indexing `v(idx)` on a vector that may hold non-finite entries. -/
def elem_dbl (v : List Dbl) (idx : List Nat) : List Dbl :=
  idx.map (fun i => v.getD i NA_REAL)

/-- The function `arma::mean` on a non-empty vector: the sum divided by the number of
entries.  With a non-finite entry the result is not finite; which non-finite value
Armadillo returns is not modelled, and `Dbl.na` stands for it. -/
def mean_dbl (v : List Dbl) : Dbl :=
  if v.all Dbl.is_finite then Dbl.fin ((finite_elems v).sum / (v.length : ℚ)) else Dbl.na

/-- The function `summarize_auc_results`; the result is the single row of the returned
1 x 5 matrix.  `prp_succ` is only read when the table has a row, so the division by
`ratios.n_elem` is a division by a positive count. -/
def summarize_auc_results (auc_results : List (List Dbl)) (has_complete_auc : Bool) :
    List Dbl :=
  let ratios := tbl_col auc_results 3
  let finite_idx := find_finite ratios
  let auc := tbl_col auc_results 0
  let pauc := tbl_col auc_results 1
  let rpauc := tbl_col auc_results 2
  let finite_ratios := elem_dbl ratios finite_idx
  let prp_succ : ℚ := (ratios.countP Dbl.gt_one : ℚ) / ((ratios.length : ℚ) * 1)
  if finite_ratios.length = 0 then
    [NA_REAL, NA_REAL, NA_REAL, NA_REAL, NA_REAL]
  else
    [if has_complete_auc then mean_dbl (elem_dbl auc finite_idx) else NA_REAL,
     mean_dbl (elem_dbl pauc finite_idx),
     mean_dbl (elem_dbl rpauc finite_idx),
     mean_dbl finite_ratios,
     Dbl.fin (1 - prp_succ)]

/-! ## Predicates used to state the properties -/

/-- The inputs on which no check of `auc_parallel` (lines 434-461) fires. -/
def auc_valid (test_prediction prediction : List Dbl) (n_bins : Int) : Prop :=
  test_prediction ≠ [] ∧ prediction ≠ [] ∧ 1 < n_bins ∧
    finite_elems prediction ≠ [] ∧ finite_elems test_prediction ≠ [] ∧
    epsilon < vec_max (finite_elems prediction ++ finite_elems test_prediction)
      - vec_min (finite_elems prediction ++ finite_elems test_prediction)

/-- The cleaned background values after the clamped binning of `auc_parallel`
(`bg_binned`, line 480). -/
def bg_binned (test_prediction prediction : List Dbl) (n_bins : Int) : List ℚ :=
  let combined := finite_elems prediction ++ finite_elems test_prediction
  let scale := ((n_bins : ℚ) - 1) / (vec_max combined - vec_min combined)
  (finite_elems prediction).map (fun v => clamp_bin n_bins ((v - vec_min combined) * scale))

/-- The local `keep_idx_partial` of `calc_aucDF_arma` (line 244). -/
def pauc_keep_idx (big_classpixels : Mat) (test_prediction : List ℚ) (rowsID : List Nat)
    (error_sens : ℚ) : List Nat :=
  find_gt (sensibility big_classpixels (elem test_prediction rowsID)) error_sens

/-- The local `xyTable_partial` of `calc_aucDF_arma` after sorting (lines 251-255). -/
def pauc_table (big_classpixels : Mat) (fractional_area test_prediction : List ℚ)
    (rowsID : List Nat) (error_sens : ℚ) : List (ℚ × ℚ) :=
  sort_rows
    ((elem fractional_area (pauc_keep_idx big_classpixels test_prediction rowsID error_sens)).zip
      (elem (sensibility big_classpixels (elem test_prediction rowsID))
        (pauc_keep_idx big_classpixels test_prediction rowsID error_sens)))

/-- The local `auc_pmodel` of `calc_aucDF_arma` (line 258). -/
def auc_pmodel_of (big_classpixels : Mat) (fractional_area test_prediction : List ℚ)
    (rowsID : List Nat) (error_sens : ℚ) : ℚ :=
  trap_roc
    (List.map Prod.fst (pauc_table big_classpixels fractional_area test_prediction rowsID error_sens))
    (List.map Prod.snd (pauc_table big_classpixels fractional_area test_prediction rowsID error_sens))

/-- The local `auc_prand` of `calc_aucDF_arma` (line 259). -/
def auc_prand_of (big_classpixels : Mat) (fractional_area test_prediction : List ℚ)
    (rowsID : List Nat) (error_sens : ℚ) : ℚ :=
  trap_roc
    (List.map Prod.fst (pauc_table big_classpixels fractional_area test_prediction rowsID error_sens))
    (List.map Prod.fst (pauc_table big_classpixels fractional_area test_prediction rowsID error_sens))

/-- The number of bins whose sensitivity is strictly greater than `error_sens`, for the
sample drawn by `rowsID`. -/
def n_qualifying (big_classpixels : Mat) (test_prediction : List ℚ) (rowsID : List Nat)
    (error_sens : ℚ) : Nat :=
  (sensibility big_classpixels (elem test_prediction rowsID)).countP
    (fun s => decide (s > error_sens))

/-- The cleaned test values after the clamped binning of `auc_parallel`
(`test_binned`, line 479). -/
def test_binned (test_prediction prediction : List Dbl) (n_bins : Int) : List ℚ :=
  let combined := finite_elems prediction ++ finite_elems test_prediction
  let scale := ((n_bins : ℚ) - 1) / (vec_max combined - vec_min combined)
  (finite_elems test_prediction).map
    (fun v => clamp_bin n_bins ((v - vec_min combined) * scale))

/-- The histogram `counts` of `auc_parallel` (lines 483-493) for the binned background
values `bg`: slot `n_bins - 1 - (b - 1)` is incremented for each value b. -/
def hist_counts (bg : List ℚ) (n_bins : Int) : List Int :=
  (bg.map (fun b => conv_to_int b - 1)).foldl (hist_step n_bins) (List.replicate n_bins.toNat 0)

/-- The vector `percent` of `auc_parallel` (lines 496-504) computed from `counts`. -/
def fractional_area_of (counts : List Int) : List ℚ :=
  let csum := cumsum (counts.map (fun (c : Int) => (c : ℚ)))
  if csum.length > 0 ∧ csum.getLastD 0 > epsilon then
    csum.map (fun c => c / csum.getLastD 0)
  else List.replicate csum.length 0

/-- The shape of the bin-comparison template: `n_samp` rows, `n_bins` columns, and column j
(0-based) holding `n_bins - j` in every row. -/
def is_template (M : Mat) (n_samp : Nat) (n_bins : Int) : Prop :=
  M.n_rows = n_samp ∧ (M.n_cols : Int) = n_bins ∧ M.cols.length = M.n_cols ∧
    ∀ j : Nat, j < M.n_cols → M.col j = List.replicate n_samp ((n_bins - (j : Int) : Int) : ℚ)

/-- The property of the ratio field of a result row `[complete, model, random, ratio]`: the
ratio is the missing marker, or zero, or the quotient of the two partial AUCs of the same
row; and it is zero exactly when one of the two partial AUCs of the row is zero. -/
def ratio_field_ok (row : List Dbl) : Prop :=
  ∃ c m r ratio : Dbl, row = [c, m, r, ratio] ∧
    (ratio = NA_REAL ∨ ratio = Dbl.fin 0 ∨
      ∃ pm pr : ℚ, m = Dbl.fin pm ∧ r = Dbl.fin pr ∧ pr ≠ 0 ∧ ratio = Dbl.fin (pm / pr)) ∧
    (ratio = Dbl.fin 0 ↔ (m = Dbl.fin 0 ∨ r = Dbl.fin 0))

/-- The rows of a table whose ratio (column 4) is finite. -/
def finite_rows (tbl : List (List Dbl)) : List (List Dbl) :=
  tbl.filter (fun (row : List Dbl) => (row.getD 3 NA_REAL).is_finite)

/-- The arithmetic mean of a list of finite values. -/
def arith_mean (v : List ℚ) : ℚ := v.sum / (v.length : ℚ)

/-- A table of (x, y) rows is ascending in x: the order `arma::sort_index` of column 0 must
produce, whatever it does with rows of equal x. -/
def ascending_in_x (tbl : List (ℚ × ℚ)) : Prop :=
  tbl.Sorted (fun a b => a.1 ≤ b.1)

/-- The call `trap_roc(tbl.col(0), tbl.col(1))` on a table of (x, y) rows. -/
def trap_of_table (tbl : List (ℚ × ℚ)) : ℚ :=
  trap_roc (List.map Prod.fst tbl) (List.map Prod.snd tbl)

/-! ## trap_roc: closed forms -/

theorem foldl_add_eq_sum (f : Nat → ℚ) (l : List Nat) (a : ℚ) :
    l.foldl (fun s i => s + f i) a = a + (l.map f).sum := by
  induction l generalizing a with
  | nil => simp
  | cons b t ih => simp [ih, add_assoc]

theorem trap_roc_eq_sum (x y : List ℚ) :
    trap_roc x y = (1 / 2) * ((List.range (x.length - 1)).map
      (fun k => (memptr x (k + 1) - memptr x k) * (memptr y (k + 1) + memptr y k))).sum := by
  unfold trap_roc
  simp only []
  split
  · next h =>
    have : x.length - 1 = 0 := by omega
    simp [this]
  · rw [foldl_add_eq_sum
      (fun i => (memptr x i - memptr x (i - 1)) * (memptr y i + memptr y (i - 1)))]
    rw [List.range_eq_range', List.range'_eq_map_range, List.range'_eq_map_range]
    simp [List.map_map, Function.comp_def, add_comm]

theorem trap_roc_cons_cons (a b : ℚ) (xs : List ℚ) (c d : ℚ) (ys : List ℚ) :
    trap_roc (a :: b :: xs) (c :: d :: ys)
      = (1 / 2) * ((b - a) * (d + c)) + trap_roc (b :: xs) (d :: ys) := by
  rw [trap_roc_eq_sum, trap_roc_eq_sum]
  simp only [List.length_cons, Nat.add_sub_cancel]
  rw [List.range_succ_eq_map]
  simp [memptr, List.map_map, Function.comp_def, mul_add]

theorem list_range_map_sum (f : Nat → ℚ) (n : Nat) :
    ((List.range n).map f).sum = ∑ k ∈ Finset.range n, f k := by
  induction n with
  | zero => simp
  | succ n ih => simp [List.range_succ, Finset.sum_range_succ, ih]

/-- C1: for sequences x and y of equal length n, `trap_roc x y` is one half of the sum over
i = 1..n-1 of (x[i] - x[i-1]) * (y[i] + y[i-1]); x need not be sorted.  The index k of the
sum is i - 1. -/
theorem trap_roc_formula (x y : List ℚ) (h : x.length = y.length) :
    trap_roc x y
      = (∑ k : Fin (x.length - 1),
          (x.get ⟨k.val + 1, by omega⟩ - x.get ⟨k.val, by omega⟩)
            * (y.get ⟨k.val + 1, by omega⟩ + y.get ⟨k.val, by omega⟩)) / 2 := by
  rw [trap_roc_eq_sum, list_range_map_sum, Finset.sum_range, one_div, mul_comm,
    ← div_eq_mul_inv]
  congr 1
  apply Finset.sum_congr rfl
  intro k _
  have h1 : k.val + 1 < x.length := by omega
  have h2 : k.val + 1 < y.length := by omega
  simp [memptr, List.getD_eq_getElem, h1, h2, Nat.lt_of_succ_lt h1, Nat.lt_of_succ_lt h2]

theorem trap_roc_formula_witness :
    [4, 1, 2].length = [3, 5, 6].length ∧ trap_roc [4, 1, 2] [3, 5, 6] = -13 / 2 := by
  refine ⟨rfl, ?_⟩
  rw [trap_roc_formula [4, 1, 2] [3, 5, 6] rfl]
  simp [Fin.sum_univ_succ]
  norm_num

/-- C2: `trap_roc` returns 0 when x has fewer than 2 points: for the empty x with any y, and
for a single-point x with any y (in particular a single-point y). -/
theorem trap_roc_fewer_than_two :
    (∀ y : List ℚ, trap_roc [] y = 0) ∧ (∀ (a : ℚ) (y : List ℚ), trap_roc [a] y = 0) := by
  constructor
  · intro y
    simp [trap_roc]
  · intro a y
    simp [trap_roc]

theorem trap_roc_self_telescope (a : ℚ) (t : List ℚ) :
    trap_roc (a :: t) (a :: t) = ((a :: t).getLast (List.cons_ne_nil a t) ^ 2 - a ^ 2) / 2 := by
  induction t generalizing a with
  | nil => simp [trap_roc]
  | cons b t ih =>
    rw [trap_roc_cons_cons, ih b, List.getLast_cons (List.cons_ne_nil b t)]
    ring

theorem foldl_min_of_le (a : ℚ) (t : List ℚ) (h : ∀ b ∈ t, a ≤ b) : t.foldl min a = a := by
  induction t with
  | nil => rfl
  | cons b t ih =>
    have hb : a ≤ b := h b (List.mem_cons_self b t)
    rw [List.foldl_cons, min_eq_left hb]
    exact ih (fun c hc => h c (List.mem_cons_of_mem b hc))

theorem foldl_max_sorted (a : ℚ) (t : List ℚ) (hs : (a :: t).Sorted (· ≤ ·)) :
    t.foldl max a = (a :: t).getLast (List.cons_ne_nil a t) := by
  induction t generalizing a with
  | nil => rfl
  | cons b t ih =>
    have hb : a ≤ b := List.rel_of_sorted_cons hs b (List.mem_cons_self b t)
    rw [List.foldl_cons, max_eq_right hb, ih b hs.of_cons,
      List.getLast_cons (List.cons_ne_nil b t)]

/-- C3 (as the code has it): for a non-empty strictly increasing x, `trap_roc x x` is
(max(x)^2 - min(x)^2) / 2. -/
theorem trap_roc_self_sorted (x : List ℚ) (hne : x ≠ []) (hs : x.Sorted (· < ·)) :
    trap_roc x x = (vec_max x ^ 2 - vec_min x ^ 2) / 2 := by
  cases x with
  | nil => exact absurd rfl hne
  | cons a t =>
    have hle : (a :: t).Sorted (· ≤ ·) := hs.imp (fun h => le_of_lt h)
    have hmin : vec_min (a :: t) = a :=
      foldl_min_of_le a t (fun b hb => List.rel_of_sorted_cons hle b hb)
    have hmax : vec_max (a :: t) = (a :: t).getLast (List.cons_ne_nil a t) :=
      foldl_max_sorted a t hle
    rw [hmin, hmax, trap_roc_self_telescope]

theorem trap_roc_self_sorted_witness :
    ([1, 2] : List ℚ) ≠ [] ∧ ([1, 2] : List ℚ).Sorted (· < ·) ∧
      trap_roc [1, 2] [1, 2] = (vec_max [1, 2] ^ 2 - vec_min [1, 2] ^ 2) / 2 :=
  ⟨by simp, by simp, trap_roc_self_sorted [1, 2] (by simp) (by simp)⟩

/-- C3 as stated fails: x = [1, 2] is strictly increasing, `trap_roc x x` is 3/2 and
(max(x) - min(x))^2 / 2 is 1/2. -/
theorem trap_roc_self_not_range_sq :
    ([1, 2] : List ℚ).Sorted (· < ·) ∧ trap_roc [1, 2] [1, 2] = 3 / 2 ∧
      (vec_max [1, 2] - vec_min [1, 2]) ^ 2 / 2 = 1 / 2 ∧
      trap_roc [1, 2] [1, 2] ≠ (vec_max [1, 2] - vec_min [1, 2]) ^ 2 / 2 := by
  refine ⟨by simp, ?_, ?_, ?_⟩ <;> simp [trap_roc, memptr, vec_max, vec_min] <;> norm_num

/-! ## Double rounding: what the derived sample size needs -/

theorem round_half_even_intCast (k : Int) : round_half_even (k : ℚ) = k := by
  simp [round_half_even]

theorem round_half_even_nonneg (x : ℚ) (h : 0 ≤ x) : 0 ≤ round_half_even x := by
  have hf : 0 ≤ ⌊x⌋ := Int.floor_nonneg.mpr h
  simp only [round_half_even]
  split_ifs <;> omega

theorem round_half_even_le (x : ℚ) (K : Int) (h : x ≤ (K : ℚ)) : round_half_even x ≤ K := by
  have hf : ⌊x⌋ ≤ K := by exact_mod_cast le_trans (Int.floor_le x) h
  by_cases hK : ⌊x⌋ = K
  · have hx : ((⌊x⌋ : Int) : ℚ) ≤ x := Int.floor_le x
    have hx2 : x - ((⌊x⌋ : Int) : ℚ) < 1 / 2 := by
      rw [hK] at hx ⊢
      linarith
    simp only [round_half_even, if_pos hx2]
    omega
  · have hlt : ⌊x⌋ + 1 ≤ K := by omega
    simp only [round_half_even]
    split_ifs <;> omega

theorem static_cast_int_of_range (z : Int) (h0 : -(2 ^ 31) ≤ z) (h1 : z < 2 ^ 31) :
    static_cast_int z = z := by
  simp only [static_cast_int]
  norm_num at h0 h1 ⊢
  omega

theorem double_exponent_le (a : ℚ) (m : Nat) (ha : 0 < a) (ham : a ≤ (m : ℚ))
    (hm : m < 2 ^ 53) : double_exponent a ≤ 52 := by
  have h1 : Int.log 2 a ≤ Int.log 2 (m : ℚ) := Int.log_mono_right ha ham
  rw [Int.log_natCast] at h1
  have hm0 : m ≠ 0 := by
    intro h
    rw [h] at ham
    simp at ham
    linarith
  have h2 : Nat.log 2 m < 53 := Nat.log_lt_of_lt_pow hm0 hm
  unfold double_exponent
  omega

theorem natCast_eq_mul_ulp (a : ℚ) (m : Nat) (ha : 0 < a) (ham : a ≤ (m : ℚ))
    (hm : m < 2 ^ 53) :
    ∃ K : Int, (m : ℚ) = (K : ℚ) * (2 : ℚ) ^ (double_exponent a - 52) := by
  have he := double_exponent_le a m ha ham hm
  refine ⟨(m : Int) * 2 ^ (52 - double_exponent a).toNat, ?_⟩
  have hd : ((52 - double_exponent a).toNat : Int) = 52 - double_exponent a :=
    Int.toNat_of_nonneg (by omega)
  have hz : (2 : ℚ) ^ (double_exponent a - 52)
      = ((2 : ℚ) ^ ((52 - double_exponent a).toNat))⁻¹ := by
    rw [← zpow_natCast, hd, ← zpow_neg]
    congr 1
    ring
  rw [hz]
  push_cast
  field_simp

theorem round_double_zero : round_double 0 = 0 := by
  simp [round_double, round_half_even]

theorem round_double_bounds (a : ℚ) (m : Nat) (h0 : 0 ≤ a) (ham : a ≤ (m : ℚ))
    (hm : m < 2 ^ 53) : 0 ≤ round_double a ∧ round_double a ≤ (m : ℚ) := by
  rcases eq_or_lt_of_le h0 with h | ha
  · rw [← h, round_double_zero]
    exact ⟨le_refl 0, Nat.cast_nonneg m⟩
  · obtain ⟨K, hK⟩ := natCast_eq_mul_ulp a m ha ham hm
    have hu : (0 : ℚ) < (2 : ℚ) ^ (double_exponent a - 52) := zpow_pos (by norm_num) _
    have habs : |a| = a := abs_of_pos ha
    simp only [round_double, habs]
    constructor
    · apply mul_nonneg _ (le_of_lt hu)
      exact_mod_cast round_half_even_nonneg _ (div_nonneg h0 (le_of_lt hu))
    · rw [hK]
      apply mul_le_mul_of_nonneg_right _ (le_of_lt hu)
      have hq : a / (2 : ℚ) ^ (double_exponent a - 52) ≤ (K : ℚ) := by
        rw [div_le_iff₀ hu, ← hK]
        exact ham
      exact_mod_cast round_half_even_le _ K hq

theorem round_double_natCast (m : Nat) (hm : m < 2 ^ 53) : round_double (m : ℚ) = (m : ℚ) := by
  rcases Nat.eq_zero_or_pos m with h | h
  · rw [h]
    simpa using round_double_zero
  · have hpos : (0 : ℚ) < (m : ℚ) := by exact_mod_cast h
    obtain ⟨K, hK⟩ := natCast_eq_mul_ulp (m : ℚ) m hpos (le_refl _) hm
    have hu : (0 : ℚ) < (2 : ℚ) ^ (double_exponent (m : ℚ) - 52) := zpow_pos (by norm_num) _
    have habs : |(m : ℚ)| = (m : ℚ) := abs_of_pos hpos
    have hq : (m : ℚ) / (2 : ℚ) ^ (double_exponent (m : ℚ) - 52) = (K : ℚ) := by
      rw [div_eq_iff (ne_of_gt hu)]
      exact hK
    simp only [round_double, habs]
    rw [hq, round_half_even_intCast, ← hK]

theorem round_double_half : round_double (1 / 2) = 1 / 2 := by
  have hlog : Int.log 2 ((1 : ℚ) / 2) = -1 := by
    have h := Int.log_zpow (R := ℚ) (b := 2) (by norm_num) (-1)
    have h2 : ((2 : ℕ) : ℚ) ^ (-1 : ℤ) = 1 / 2 := by norm_num
    rw [h2] at h
    exact h
  have habs : |(1 : ℚ) / 2| = 1 / 2 := abs_of_pos (by norm_num)
  have he : double_exponent ((1 : ℚ) / 2) = -1 := by
    unfold double_exponent
    rw [hlog]
    decide
  have hq : ((1 : ℚ) / 2) / (2 : ℚ) ^ ((-1 : ℤ) - 52) = ((2 ^ 52 : Int) : ℚ) := by
    norm_num [zpow_neg]
  simp only [round_double, habs, he]
  rw [hq, round_half_even_intCast]
  norm_num [zpow_neg]

theorem double_exponent_eq (q : ℚ) (e : Int) (hq : 0 < q) (h1 : (2 : ℚ) ^ e ≤ q)
    (h2 : q < (2 : ℚ) ^ (e + 1)) (he : -1022 ≤ e) : double_exponent q = e := by
  have hlo : e ≤ Int.log 2 q := (Int.zpow_le_iff_le_log (by norm_num) hq).mp (by exact_mod_cast h1)
  have hhi : Int.log 2 q < e + 1 :=
    (Int.lt_zpow_iff_log_lt (by norm_num) hq).mp (by exact_mod_cast h2)
  unfold double_exponent
  omega

theorem round_half_even_up (x : ℚ) (f : Int) (h1 : (f : ℚ) + 1 / 2 < x)
    (h2 : x < (f : ℚ) + 1) : round_half_even x = f + 1 := by
  have hf : ⌊x⌋ = f := Int.floor_eq_iff.mpr ⟨by linarith, h2⟩
  have c1 : ¬ (x - (f : ℚ) < 1 / 2) := by linarith
  have c2 : x - (f : ℚ) > 1 / 2 := by linarith
  simp only [round_half_even, hf, if_neg c1, if_pos c2]

theorem round_double_28_percent :
    round_double (28 / 100) = 1261007895663739 / 4503599627370496 := by
  have habs : |(28 : ℚ) / 100| = 28 / 100 := abs_of_pos (by norm_num)
  have he : double_exponent ((28 : ℚ) / 100) = -2 :=
    double_exponent_eq _ (-2) (by norm_num) (by norm_num [zpow_neg]) (by norm_num [zpow_neg])
      (by decide)
  have hr : round_half_even (((28 : ℚ) / 100) / (2 : ℚ) ^ ((-2 : ℤ) - 52))
      = 5044031582654955 + 1 :=
    round_half_even_up _ 5044031582654955 (by norm_num [zpow_neg]) (by norm_num [zpow_neg])
  simp only [round_double, habs, he]
  rw [hr]
  norm_num [zpow_neg]

theorem round_double_28_percent_of_25 :
    round_double (1261007895663739 / 4503599627370496 * 25)
      = 7881299347898369 / 1125899906842624 := by
  have habs : |(1261007895663739 : ℚ) / 4503599627370496 * 25|
      = 1261007895663739 / 4503599627370496 * 25 := abs_of_pos (by norm_num)
  have he : double_exponent ((1261007895663739 : ℚ) / 4503599627370496 * 25) = 2 :=
    double_exponent_eq _ 2 (by norm_num) (by norm_num) (by norm_num) (by decide)
  have hr : round_half_even (((1261007895663739 : ℚ) / 4503599627370496 * 25)
        / (2 : ℚ) ^ ((2 : ℤ) - 52))
      = 7881299347898368 + 1 :=
    round_half_even_up _ 7881299347898368 (by norm_num [zpow_neg]) (by norm_num [zpow_neg])
  simp only [round_double, habs, he]
  rw [hr]
  norm_num [zpow_neg]

theorem derived_sample_size_28_of_25 :
    max 1 (static_cast_int ⌈round_double (round_double (28 / 100) * ((25 : Nat) : ℚ))⌉) = 8
      ∧ max 1 ⌈((28 : ℚ) / 100) * ((25 : Nat) : ℚ)⌉ = 7 := by
  constructor
  · have hc : ⌈(7881299347898369 : ℚ) / 1125899906842624⌉ = 8 :=
      Int.ceil_eq_iff.mpr ⟨by norm_num, by norm_num⟩
    have h25 : ((25 : Nat) : ℚ) = 25 := by norm_num
    rw [round_double_28_percent, h25, round_double_28_percent_of_25, hc,
      static_cast_int_of_range 8 (by norm_num) (by norm_num)]
    rfl
  · have hc : ⌈((28 : ℚ) / 100) * ((25 : Nat) : ℚ)⌉ = 7 :=
      Int.ceil_eq_iff.mpr ⟨by norm_num, by norm_num⟩
    rw [hc]
    rfl

theorem derived_sample_size_whole (sp : ℚ) (k m : Nat) (hsp : sp / 100 = (k : ℚ))
    (hk : k < 2 ^ 53) (hkm : k * m < 2 ^ 31) :
    max 1 (static_cast_int ⌈round_double (round_double (sp / 100) * (m : ℚ))⌉)
      = max 1 ((k * m : Nat) : Int) := by
  have hkm2 : k * m < 2 ^ 53 := lt_trans hkm (by norm_num)
  have hprod : (k : ℚ) * (m : ℚ) = ((k * m : Nat) : ℚ) := by push_cast; ring
  have hc : ⌈((k * m : Nat) : ℚ)⌉ = ((k * m : Nat) : Int) := by
    have : ((k * m : Nat) : ℚ) = (((k * m : Nat) : Int) : ℚ) := by push_cast; ring
    rw [this, Int.ceil_intCast]
  rw [hsp, round_double_natCast k hk, hprod, round_double_natCast (k * m) hkm2, hc,
    static_cast_int_of_range _ (by have : (0 : Int) ≤ ((k * m : Nat) : Int) := Int.natCast_nonneg _
                                   omega)
      (by exact_mod_cast hkm)]

theorem derived_sample_size_50_of_2 :
    max 1 (static_cast_int ⌈round_double (round_double (50 / 100) * ((2 : Nat) : ℚ))⌉) = 1 := by
  have h50 : (50 : ℚ) / 100 = 1 / 2 := by norm_num
  have hprod : (1 : ℚ) / 2 * ((2 : Nat) : ℚ) = ((1 : Nat) : ℚ) := by norm_num
  have hc : ⌈((1 : Nat) : ℚ)⌉ = 1 := by simp
  rw [h50, round_double_half, hprod, round_double_natCast 1 (by norm_num), hc,
    static_cast_int_of_range 1 (by norm_num) (by norm_num)]
  rfl

/-! ## auc_parallel: validation -/

theorem finite_elems_eq_nil (v : List Dbl) (h : ∀ d ∈ v, ∀ q : ℚ, d ≠ Dbl.fin q) :
    finite_elems v = [] := by
  induction v with
  | nil => rfl
  | cons d t ih =>
    have ht : finite_elems t = [] := ih (fun e he => h e (List.mem_cons_of_mem d he))
    cases d with
    | fin q => exact absurd rfl (h (Dbl.fin q) (List.mem_cons_self _ t) q)
    | na => simpa [finite_elems] using ht
    | pinf => simpa [finite_elems] using ht
    | ninf => simpa [finite_elems] using ht

theorem auc_parallel_setup_error (test_prediction prediction : List Dbl)
    (threshold sample_percentage : ℚ) (n_bins : Int)
    (h : ¬ auc_valid test_prediction prediction n_bins) :
    ∃ msg, auc_parallel_setup test_prediction prediction threshold sample_percentage n_bins
      = Except.error msg := by
  unfold auc_parallel_setup
  simp only []
  split_ifs with h1 h2 h3 h4 h5
  · exact ⟨_, rfl⟩
  · exact ⟨_, rfl⟩
  · exact ⟨_, rfl⟩
  · exact ⟨_, rfl⟩
  · exact ⟨_, rfl⟩
  · exfalso
    apply h
    simp only [List.length_eq_zero, not_or, not_le] at h1 h2 h3 h4
    exact ⟨h1.1, h1.2, h2, h3.1, h3.2, h4⟩

/-- C4: `auc_parallel` stops with an error and returns no table when the test sample is
empty, the background sample is empty, the background sample has no finite value, n_bins is
at most 1, or the cleaned combined sample has max - min not greater than epsilon. -/
theorem auc_parallel_invalid_input (test_prediction prediction : List Dbl)
    (threshold sample_percentage : ℚ) (iterations : Nat) (compute_full_auc : Bool)
    (n_bins : Int) (draws : Nat → List Nat)
    (h : test_prediction = [] ∨ prediction = [] ∨ (∀ d ∈ prediction, ∀ q : ℚ, d ≠ Dbl.fin q)
      ∨ n_bins ≤ 1
      ∨ vec_max (finite_elems prediction ++ finite_elems test_prediction)
          - vec_min (finite_elems prediction ++ finite_elems test_prediction) ≤ epsilon) :
    ∃ msg, auc_parallel test_prediction prediction threshold sample_percentage iterations
      compute_full_auc n_bins draws = Except.error msg := by
  have hinv : ¬ auc_valid test_prediction prediction n_bins := by
    rintro ⟨v1, v2, v3, v4, -, v6⟩
    rcases h with h | h | h | h | h
    · exact v1 h
    · exact v2 h
    · exact v4 (finite_elems_eq_nil prediction h)
    · exact absurd v3 (not_lt.mpr h)
    · exact absurd v6 (not_lt.mpr h)
  obtain ⟨msg, hmsg⟩ := auc_parallel_setup_error test_prediction prediction threshold
    sample_percentage n_bins hinv
  exact ⟨msg, by simp [auc_parallel, hmsg]⟩

theorem auc_parallel_invalid_input_witness :
    (∃ msg, auc_parallel [] [Dbl.fin 1] 5 50 3 true 4 (fun _ => [0]) = Except.error msg)
    ∧ (∃ msg, auc_parallel [Dbl.fin 1] [] 5 50 3 true 4 (fun _ => [0]) = Except.error msg)
    ∧ (∃ msg, auc_parallel [Dbl.fin 1] [Dbl.na, Dbl.pinf] 5 50 3 true 4 (fun _ => [0])
        = Except.error msg)
    ∧ (∃ msg, auc_parallel [Dbl.fin 1] [Dbl.fin 0] 5 50 3 true 1 (fun _ => [0])
        = Except.error msg)
    ∧ (∃ msg, auc_parallel [Dbl.fin 1, Dbl.na] [Dbl.fin 1] 5 50 3 true 4 (fun _ => [0])
        = Except.error msg) :=
  ⟨auc_parallel_invalid_input [] [Dbl.fin 1] 5 50 3 true 4 (fun _ => [0]) (Or.inl rfl),
   auc_parallel_invalid_input [Dbl.fin 1] [] 5 50 3 true 4 (fun _ => [0]) (Or.inr (Or.inl rfl)),
   auc_parallel_invalid_input [Dbl.fin 1] [Dbl.na, Dbl.pinf] 5 50 3 true 4 (fun _ => [0])
     (Or.inr (Or.inr (Or.inl (by simp)))),
   auc_parallel_invalid_input [Dbl.fin 1] [Dbl.fin 0] 5 50 3 true 1 (fun _ => [0])
     (Or.inr (Or.inr (Or.inr (Or.inl (by decide))))),
   auc_parallel_invalid_input [Dbl.fin 1, Dbl.na] [Dbl.fin 1] 5 50 3 true 4 (fun _ => [0])
     (Or.inr (Or.inr (Or.inr (Or.inr (by simp [finite_elems, vec_max, vec_min, epsilon])))))⟩

/-! ## Binning: order and range -/

theorem bigclass_bin_mono (pred_min scale a b : ℚ) (hs : 0 ≤ scale) (hab : a ≤ b) :
    bigclass_bin pred_min scale a ≤ bigclass_bin pred_min scale b := by
  simp only [bigclass_bin]
  have h1 : (a - pred_min) * scale ≤ (b - pred_min) * scale :=
    mul_le_mul_of_nonneg_right (sub_le_sub_right hab pred_min) hs
  have h2 : ⌊(a - pred_min) * scale⌋ ≤ ⌊(b - pred_min) * scale⌋ := Int.floor_mono h1
  have h3 : ((⌊(a - pred_min) * scale⌋ : Int) : ℚ) ≤ ((⌊(b - pred_min) * scale⌋ : Int) : ℚ) :=
    Int.cast_le.mpr h2
  linarith

theorem clamp_bin_mono (n_bins : Int) (u v : ℚ) (huv : u ≤ v) :
    clamp_bin n_bins u ≤ clamp_bin n_bins v := by
  simp only [clamp_bin]
  have h2 : ((⌊u⌋ : Int) : ℚ) ≤ ((⌊v⌋ : Int) : ℚ) := Int.cast_le.mpr (Int.floor_mono huv)
  have h3 : max (0 : ℚ) (min ((n_bins - 1 : Int) : ℚ) (⌊u⌋ : ℚ))
      ≤ max (0 : ℚ) (min ((n_bins - 1 : Int) : ℚ) (⌊v⌋ : ℚ)) :=
    max_le_max (le_refl 0) (min_le_min (le_refl _) h2)
  linarith

/-- C5: for fixed min and max with max - min > epsilon and n_bins >= 2, a <= b gives
bin(a) <= bin(b), for the unclamped map of `bigclass_matrix` and for the clamped map of
`auc_parallel`, both with scale = (n_bins - 1) / (max - min). -/
theorem binning_order_preserving (n_bins : Int) (min_val max_val a b : ℚ)
    (hn : 2 ≤ n_bins) (hr : max_val - min_val > epsilon) (hab : a ≤ b) :
    bigclass_bin min_val (((n_bins : ℚ) - 1) / (max_val - min_val)) a
        ≤ bigclass_bin min_val (((n_bins : ℚ) - 1) / (max_val - min_val)) b
      ∧ clamp_bin n_bins ((a - min_val) * (((n_bins : ℚ) - 1) / (max_val - min_val)))
        ≤ clamp_bin n_bins ((b - min_val) * (((n_bins : ℚ) - 1) / (max_val - min_val))) := by
  have heps : (0 : ℚ) < epsilon := by unfold epsilon; positivity
  have hrange : 0 < max_val - min_val := lt_trans heps hr
  have hnq : (2 : ℚ) ≤ (n_bins : ℚ) := by exact_mod_cast hn
  have hs : 0 ≤ ((n_bins : ℚ) - 1) / (max_val - min_val) :=
    div_nonneg (by linarith) (le_of_lt hrange)
  exact ⟨bigclass_bin_mono min_val _ a b hs hab,
    clamp_bin_mono n_bins _ _ (mul_le_mul_of_nonneg_right (sub_le_sub_right hab min_val) hs)⟩

theorem binning_order_preserving_witness :
    bigclass_bin 0 ((((5 : Int) : ℚ) - 1) / (1 - 0)) (3 / 10)
        ≤ bigclass_bin 0 ((((5 : Int) : ℚ) - 1) / (1 - 0)) (7 / 10)
      ∧ clamp_bin 5 ((3 / 10 - 0) * ((((5 : Int) : ℚ) - 1) / (1 - 0)))
        ≤ clamp_bin 5 ((7 / 10 - 0) * ((((5 : Int) : ℚ) - 1) / (1 - 0))) :=
  binning_order_preserving 5 0 1 (3 / 10) (7 / 10) (by decide)
    (by unfold epsilon; norm_num) (by norm_num)

theorem clamp_bin_eq_int (n_bins : Int) (val : ℚ) (hn : 1 ≤ n_bins) :
    ∃ b : Int, clamp_bin n_bins val = (b : ℚ) ∧ 1 ≤ b ∧ b ≤ n_bins := by
  refine ⟨max 0 (min (n_bins - 1) ⌊val⌋) + 1, ?_, ?_, ?_⟩
  · simp only [clamp_bin]
    push_cast
    rfl
  · have := le_max_left (0 : Int) (min (n_bins - 1) ⌊val⌋)
    omega
  · have h1 : max 0 (min (n_bins - 1) ⌊val⌋) ≤ n_bins - 1 :=
      max_le (by omega) (min_le_left _ _)
    omega

/-- C6: in `auc_parallel`, for every finite value and every n_bins >= 2, the bin index
produced by the clamped map is an integer b with 1 <= b <= n_bins. -/
theorem clamp_bin_range (n_bins : Int) (val : ℚ) (hn : 2 ≤ n_bins) :
    ∃ b : Int, clamp_bin n_bins val = (b : ℚ) ∧ 1 ≤ b ∧ b ≤ n_bins :=
  clamp_bin_eq_int n_bins val (by omega)

theorem clamp_bin_range_witness :
    ∃ b : Int, clamp_bin 5 (37 / 10) = (b : ℚ) ∧ 1 ≤ b ∧ b ≤ 5 :=
  clamp_bin_range 5 (37 / 10) (by decide)

/-! ## The bin-comparison template -/

theorem modify_append_length {α : Type} (f : α → α) (A B : List α) (m : Nat)
    (hm : A.length = m) : (A ++ B).modify f m = A ++ B.modify f 0 := by
  subst hm
  induction A with
  | nil => simp
  | cons a A ih => simp [ih]

theorem fill_template_loop (r n : Nat) (g : Nat → ℚ) (m : Nat) (hm : m ≤ n) :
    (List.range m).foldl (fun M i => M.fill_col i (g i)) (Mat.create r n)
      = ⟨r, n, (List.range m).map (fun j => List.replicate r (g j))
          ++ List.replicate (n - m) (List.replicate r 0)⟩ := by
  induction m with
  | zero => simp [Mat.create]
  | succ m ih =>
    rw [List.range_succ, List.foldl_append, ih (by omega)]
    have hlen : ((List.range m).map (fun j => List.replicate r (g j))).length = m := by simp
    have hnm : n - m = (n - (m + 1)) + 1 := by omega
    simp only [List.foldl_cons, List.foldl_nil, Mat.fill_col]
    congr 1
    rw [hnm, List.replicate_succ, modify_append_length _ _ _ m hlen]
    simp

theorem fill_template_eq (n_samp : Nat) (n_bins : Int) :
    fill_template n_samp n_bins
      = ⟨n_samp, n_bins.toNat,
          (List.range n_bins.toNat).map
            (fun (j : Nat) => List.replicate n_samp ((n_bins - (j : Int) : Int) : ℚ))⟩ := by
  unfold fill_template
  rw [fill_template_loop n_samp n_bins.toNat (fun i => ((n_bins - (i : Int) : Int) : ℚ))
    n_bins.toNat (le_refl _)]
  simp

theorem fill_template_is_template (n_samp : Nat) (n_bins : Int) (hn : 0 ≤ n_bins) :
    is_template (fill_template n_samp n_bins) n_samp n_bins := by
  rw [fill_template_eq]
  refine ⟨rfl, ?_, ?_, ?_⟩
  · simp [Int.toNat_of_nonneg hn]
  · simp
  · intro j hj
    simp only at hj
    simp [Mat.col, List.getD_eq_getElem?_getD, List.getElem?_map, List.getElem?_range hj]

theorem auc_parallel_setup_ok (test_prediction prediction : List Dbl)
    (threshold sample_percentage : ℚ) (n_bins : Int)
    (h : auc_valid test_prediction prediction n_bins) :
    ∃ s, auc_parallel_setup test_prediction prediction threshold sample_percentage n_bins
        = Except.ok s
      ∧ s.n_samp
        = max 1 (static_cast_int ⌈round_double (round_double (sample_percentage / 100)
            * ((finite_elems test_prediction).length : ℚ))⌉)
      ∧ s.big_classpixels = fill_template s.n_samp.toNat n_bins
      ∧ s.error_sens = 1 - threshold / 100
      ∧ s.percent = fractional_area_of
          (hist_counts (bg_binned test_prediction prediction n_bins) n_bins)
      ∧ s.test_binned = test_binned test_prediction prediction n_bins := by
  obtain ⟨v1, v2, v3, v4, v5, v6⟩ := h
  have e1 : ¬ (test_prediction.length = 0 ∨ prediction.length = 0) := by
    simp [List.length_eq_zero, v1, v2]
  have e2 : ¬ n_bins ≤ 1 := not_le.mpr v3
  have e3 : ¬ ((finite_elems prediction).length = 0 ∨ (finite_elems test_prediction).length = 0) := by
    simp [List.length_eq_zero, v4, v5]
  have e4 : ¬ (vec_max (finite_elems prediction ++ finite_elems test_prediction)
      - vec_min (finite_elems prediction ++ finite_elems test_prediction) ≤ epsilon) :=
    not_le.mpr v6
  have hpos : 0 < (finite_elems test_prediction).length := List.length_pos.mpr v5
  have e5 : ¬ ((finite_elems prediction).length ≥
      (List.map (clamp_bin n_bins)
        (List.map (fun v => (v - vec_min (finite_elems prediction ++ finite_elems test_prediction))
          * (((n_bins : ℚ) - 1) / (vec_max (finite_elems prediction ++ finite_elems test_prediction)
            - vec_min (finite_elems prediction ++ finite_elems test_prediction))))
          (finite_elems prediction ++ finite_elems test_prediction))).length) := by
    simp only [List.length_map, List.length_append]
    omega
  unfold auc_parallel_setup
  simp only [if_neg e1, if_neg e2, if_neg e3, if_neg e4, if_neg e5]
  refine ⟨_, rfl, ?_, rfl, rfl, ?_, ?_⟩
  · simp
  · have hbg : List.take (finite_elems prediction).length
        (List.map (clamp_bin n_bins)
          (List.map (fun v => (v - vec_min (finite_elems prediction ++ finite_elems test_prediction))
            * (((n_bins : ℚ) - 1) / (vec_max (finite_elems prediction ++ finite_elems test_prediction)
              - vec_min (finite_elems prediction ++ finite_elems test_prediction))))
            (finite_elems prediction ++ finite_elems test_prediction)))
        = bg_binned test_prediction prediction n_bins := by
      simp [bg_binned, List.map_append, List.take_append_eq_append_take]
    simp only [fractional_area_of, hist_counts, hbg]
  · simp [test_binned, List.map_append, List.drop_append_eq_append_drop]

theorem bigclass_matrix_ok (test_prediction : List ℚ) (prediction : List Dbl) (n_bins : Int)
    (h1 : test_prediction ≠ []) (h2 : prediction ≠ []) (h3 : finite_elems prediction ≠ [])
    (h4 : epsilon < vec_max (finite_elems prediction ++ test_prediction)
      - vec_min (finite_elems prediction ++ test_prediction)) :
    bigclass_matrix test_prediction prediction n_bins
      = Except.ok (fill_template test_prediction.length n_bins) := by
  have e1 : ¬ (prediction.length = 0 ∨ test_prediction.length = 0) := by
    simp [List.length_eq_zero, h1, h2]
  have e2 : ¬ ((finite_elems prediction).length = 0) := by
    simp [List.length_eq_zero, h3]
  have e3 : ¬ (vec_max (finite_elems prediction ++ test_prediction)
      - vec_min (finite_elems prediction ++ test_prediction) ≤ epsilon) := not_le.mpr h4
  unfold bigclass_matrix
  simp only [if_neg e1, if_neg e2, if_neg e3]
  simp

/-- C7: the bin-comparison template has n_samp rows and n_bins columns and column j
(0-based) holds n_bins - j in every row.  This holds for the matrix returned by
`bigclass_matrix` on inputs it accepts (n_samp is the number of test values) and for the
matrix built inside `auc_parallel` on inputs it accepts (n_samp is the derived sample
size). -/
theorem template_descending :
    (∀ (test_prediction : List ℚ) (prediction : List Dbl) (n_bins : Int),
        test_prediction ≠ [] → prediction ≠ [] → finite_elems prediction ≠ [] →
        epsilon < vec_max (finite_elems prediction ++ test_prediction)
          - vec_min (finite_elems prediction ++ test_prediction) →
        0 ≤ n_bins →
        ∃ M, bigclass_matrix test_prediction prediction n_bins = Except.ok M
          ∧ is_template M test_prediction.length n_bins)
    ∧ (∀ (test_prediction prediction : List Dbl) (threshold sample_percentage : ℚ)
        (n_bins : Int), auc_valid test_prediction prediction n_bins →
        ∃ s, auc_parallel_setup test_prediction prediction threshold sample_percentage n_bins
            = Except.ok s
          ∧ ((s.big_classpixels.n_rows : Nat) : Int) = s.n_samp
          ∧ is_template s.big_classpixels s.n_samp.toNat n_bins) := by
  constructor
  · intro test_prediction prediction n_bins h1 h2 h3 h4 h5
    exact ⟨_, bigclass_matrix_ok test_prediction prediction n_bins h1 h2 h3 h4,
      fill_template_is_template _ n_bins h5⟩
  · intro test_prediction prediction threshold sample_percentage n_bins hv
    obtain ⟨s, hs, hn, hM, -, -, -⟩ := auc_parallel_setup_ok test_prediction prediction
      threshold sample_percentage n_bins hv
    have hbins : 0 ≤ n_bins := by
      have := hv.2.2.1
      omega
    have htpl := fill_template_is_template s.n_samp.toNat n_bins hbins
    rw [← hM] at htpl
    refine ⟨s, hs, ?_, htpl⟩
    rw [htpl.1]
    have h1 : (1 : Int) ≤ s.n_samp := by rw [hn]; exact le_max_left _ _
    omega

theorem template_descending_witness :
    (∃ M, bigclass_matrix [1 / 2, 1] [Dbl.fin 0, Dbl.na] 3 = Except.ok M
        ∧ is_template M 2 3)
    ∧ (∃ s, auc_parallel_setup [Dbl.fin (1 / 2), Dbl.fin 1] [Dbl.fin 0, Dbl.na] 5 50 3
          = Except.ok s
        ∧ ((s.big_classpixels.n_rows : Nat) : Int) = s.n_samp
        ∧ is_template s.big_classpixels s.n_samp.toNat 3) :=
  ⟨template_descending.1 [1 / 2, 1] [Dbl.fin 0, Dbl.na] 3 (by simp) (by simp)
      (by simp [finite_elems]) (by simp [finite_elems, vec_max, vec_min, epsilon]; norm_num)
      (by decide),
   template_descending.2 [Dbl.fin (1 / 2), Dbl.fin 1] [Dbl.fin 0, Dbl.na] 5 50 3
      ⟨by simp, by simp, by decide, by simp [finite_elems], by simp [finite_elems],
        by simp [finite_elems, vec_max, vec_min, epsilon]; norm_num⟩⟩

/-! ## The fractional-area curve -/

theorem take_modify_sum (l : List Int) (i m : Nat) (hi : i < l.length) :
    ((l.modify (· + 1) i).take m).sum = (l.take m).sum + (if i < m then 1 else 0) := by
  induction l generalizing i m with
  | nil => simp at hi
  | cons a t ih =>
    cases i with
    | zero =>
      cases m with
      | zero => simp
      | succ m => simp; ring
    | succ i =>
      cases m with
      | zero => simp
      | succ m =>
        have hi2 : i < t.length := by simpa using hi
        simp only [List.modify_succ_cons, List.take_succ_cons, List.sum_cons, ih i m hi2,
          Nat.add_lt_add_iff_right]
        ring

theorem hist_fold (n_bins : Int) (vals : List Int) (c : List Int)
    (hv : ∀ v ∈ vals, 0 ≤ v ∧ v < n_bins) (hc : c.length = n_bins.toNat) :
    (vals.foldl (hist_step n_bins) c).length = c.length
      ∧ ∀ m : Nat, ((vals.foldl (hist_step n_bins) c).take m).sum
          = (c.take m).sum
            + (vals.countP (fun v => decide ((n_bins - 1 - v).toNat < m)) : Int) := by
  induction vals generalizing c with
  | nil => simp
  | cons v t ih =>
    have hv0 : 0 ≤ v ∧ v < n_bins := hv v (List.mem_cons_self v t)
    have hstep : hist_step n_bins c v = c.modify (· + 1) (n_bins - 1 - v).toNat := by
      simp [hist_step, hv0]
    have hlen : (hist_step n_bins c v).length = n_bins.toNat := by
      rw [hstep, List.length_modify, hc]
    have hidx : (n_bins - 1 - v).toNat < c.length := by
      rw [hc]; omega
    obtain ⟨ih1, ih2⟩ := ih (hist_step n_bins c v)
      (fun w hw => hv w (List.mem_cons_of_mem v hw)) hlen
    refine ⟨by rw [List.foldl_cons, ih1, hlen, hc], ?_⟩
    intro m
    rw [List.foldl_cons, ih2 m, hstep, take_modify_sum c _ m hidx, List.countP_cons]
    by_cases hm : (n_bins - 1 - v).toNat < m
    · simp [hm]; ring
    · simp [hm]

theorem cumsum_from_length (acc : ℚ) (v : List ℚ) : (cumsum_from acc v).length = v.length := by
  induction v generalizing acc with
  | nil => rfl
  | cons a t ih => simp [cumsum_from, ih]

theorem cumsum_from_getD (acc : ℚ) (v : List ℚ) (k : Nat) (hk : k < v.length) :
    (cumsum_from acc v).getD k 0 = acc + (v.take (k + 1)).sum := by
  induction v generalizing acc k with
  | nil => simp at hk
  | cons a t ih =>
    cases k with
    | zero => simp [cumsum_from]
    | succ k =>
      have hk2 : k < t.length := by simpa using hk
      have := ih (acc + a) k hk2
      simp only [cumsum_from, List.getD_cons_succ, this, List.take_succ_cons, List.sum_cons]
      ring

theorem getLastD_eq_getD (l : List ℚ) : l.getLastD 0 = l.getD (l.length - 1) 0 := by
  rw [List.getLastD_eq_getLast?, List.getLast?_eq_getElem?, List.getD_eq_getElem?_getD]

theorem conv_to_int_intCast (z : Int) : conv_to_int (z : ℚ) = z := by
  unfold conv_to_int
  split <;> simp

theorem fractional_area_hist (n_bins : Int) (bg : List ℚ) (hn : 1 ≤ n_bins) (hne : bg ≠ [])
    (hb : ∀ b ∈ bg, ∃ z : Int, b = (z : ℚ) ∧ 1 ≤ z ∧ z ≤ n_bins) :
    (fractional_area_of (hist_counts bg n_bins)).length = n_bins.toNat
      ∧ ∀ k : Nat, k < n_bins.toNat →
          (fractional_area_of (hist_counts bg n_bins)).getD k 0
            = (bg.countP (fun b => decide ((n_bins : ℚ) - (k : ℚ) ≤ b)) : ℚ)
                / (bg.length : ℚ) := by
  have hvals : ∀ v ∈ bg.map (fun b => conv_to_int b - 1), 0 ≤ v ∧ v < n_bins := by
    intro v hv
    obtain ⟨b, hbm, rfl⟩ := List.mem_map.mp hv
    obtain ⟨z, rfl, hz1, hz2⟩ := hb b hbm
    rw [conv_to_int_intCast]
    omega
  have hrep : (List.replicate n_bins.toNat (0 : Int)).length = n_bins.toNat := by simp
  obtain ⟨hlen, hsum⟩ := hist_fold n_bins _ _ hvals hrep
  have hcl : (hist_counts bg n_bins).length = n_bins.toNat := by
    unfold hist_counts
    rw [hlen, hrep]
  have hzero : ∀ m : Nat, ((List.replicate n_bins.toNat (0 : Int)).take m).sum = 0 := by
    intro m
    simp [List.take_replicate]
  have hcount : ∀ m : Nat, m ≤ n_bins.toNat →
      (((hist_counts bg n_bins).take (m + 1)).sum : Int)
        = (bg.countP (fun b => decide ((n_bins : ℚ) - (m : ℚ) ≤ b)) : Int) := by
    intro m _
    unfold hist_counts
    rw [hsum (m + 1), hzero, zero_add, List.countP_map]
    congr 1
    apply List.countP_congr
    intro b hbm
    obtain ⟨z, rfl, hz1, hz2⟩ := hb b hbm
    simp only [Function.comp, conv_to_int_intCast, decide_eq_true_eq]
    have hq : ((n_bins : ℚ) - (m : ℚ) ≤ (z : ℚ)) ↔ n_bins - (m : Int) ≤ z := by
      constructor
      · intro h
        have : ((n_bins - (m : Int) : Int) : ℚ) ≤ (z : ℚ) := by push_cast; exact h
        exact_mod_cast this
      · intro h
        have : ((n_bins - (m : Int) : Int) : ℚ) ≤ (z : ℚ) := by exact_mod_cast h
        push_cast at this
        exact this
    rw [hq]
    omega
  have hnpos : 0 < n_bins.toNat := by omega
  have hcsl : (cumsum ((hist_counts bg n_bins).map (fun (c : Int) => (c : ℚ)))).length
      = n_bins.toNat := by
    rw [cumsum, cumsum_from_length, List.length_map, hcl]
  have hget : ∀ k : Nat, k < n_bins.toNat →
      (cumsum ((hist_counts bg n_bins).map (fun (c : Int) => (c : ℚ)))).getD k 0
        = (bg.countP (fun b => decide ((n_bins : ℚ) - (k : ℚ) ≤ b)) : ℚ) := by
    intro k hk
    rw [cumsum, cumsum_from_getD 0 _ k (by rw [List.length_map, hcl]; exact hk), zero_add,
      ← List.map_take, ← Int.cast_list_sum, hcount k (le_of_lt hk)]
    simp
  have htotal : (cumsum ((hist_counts bg n_bins).map (fun (c : Int) => (c : ℚ)))).getLastD 0
      = (bg.length : ℚ) := by
    rw [getLastD_eq_getD, hcsl, hget (n_bins.toNat - 1) (by omega)]
    congr 1
    rw [List.countP_eq_length]
    intro b hbm
    obtain ⟨z, rfl, hz1, hz2⟩ := hb b hbm
    simp only [decide_eq_true_eq]
    have h1 : ((n_bins.toNat - 1 : Nat) : ℚ) = (n_bins : ℚ) - 1 := by
      have h2 : ((n_bins.toNat - 1 : Nat) : Int) = n_bins - 1 := by omega
      have h3 : (((n_bins.toNat - 1 : Nat) : Int) : ℚ) = ((n_bins - 1 : Int) : ℚ) := by
        rw [h2]
      push_cast at h3
      simpa using h3
    rw [h1]
    have h4 : (1 : ℚ) ≤ (z : ℚ) := by exact_mod_cast hz1
    linarith
  have hbgpos : (1 : ℚ) ≤ (bg.length : ℚ) := by
    have : 0 < bg.length := List.length_pos.mpr hne
    exact_mod_cast this
  have heps : epsilon < 1 := by unfold epsilon; norm_num
  have hcond : (cumsum ((hist_counts bg n_bins).map (fun (c : Int) => (c : ℚ)))).length > 0
      ∧ (cumsum ((hist_counts bg n_bins).map (fun (c : Int) => (c : ℚ)))).getLastD 0
          > epsilon := by
    rw [hcsl, htotal]
    exact ⟨hnpos, lt_of_lt_of_le heps hbgpos⟩
  have hfa : fractional_area_of (hist_counts bg n_bins)
      = (cumsum ((hist_counts bg n_bins).map (fun (c : Int) => (c : ℚ)))).map
          (fun c => c / (bg.length : ℚ)) := by
    simp only [fractional_area_of]
    rw [if_pos hcond, htotal]
  rw [hfa]
  refine ⟨by rw [List.length_map, hcsl], ?_⟩
  intro k hk
  have hk2 : k < (cumsum ((hist_counts bg n_bins).map (fun (c : Int) => (c : ℚ)))).length := by
    rw [hcsl]; exact hk
  rw [← hget k hk]
  simp [List.getD_eq_getElem?_getD, List.getElem?_map, List.getElem?_eq_getElem hk2]

theorem bg_binned_length (test_prediction prediction : List Dbl) (n_bins : Int) :
    (bg_binned test_prediction prediction n_bins).length = (finite_elems prediction).length := by
  simp [bg_binned]

theorem bg_binned_range (test_prediction prediction : List Dbl) (n_bins : Int)
    (hn : 1 ≤ n_bins) :
    ∀ b ∈ bg_binned test_prediction prediction n_bins,
      ∃ z : Int, b = (z : ℚ) ∧ 1 ≤ z ∧ z ≤ n_bins := by
  intro b hb
  simp only [bg_binned, List.mem_map] at hb
  obtain ⟨v, -, rfl⟩ := hb
  exact clamp_bin_eq_int n_bins _ hn

/-- C8: on every input `auc_parallel` accepts, the fractional-area curve it hands to the
bootstrap driver has length n_bins, and its entry k (0-based) is the number of cleaned
background values whose bin index is >= n_bins - k, divided by the number of cleaned
background values; n_bins - k is also the value held by column k of the template. -/
theorem fractional_area_curve (test_prediction prediction : List Dbl)
    (threshold sample_percentage : ℚ) (iterations : Nat) (compute_full_auc : Bool)
    (n_bins : Int) (draws : Nat → List Nat)
    (hv : auc_valid test_prediction prediction n_bins) :
    ∃ s, auc_parallel_setup test_prediction prediction threshold sample_percentage n_bins
        = Except.ok s
      ∧ auc_parallel test_prediction prediction threshold sample_percentage iterations
          compute_full_auc n_bins draws
        = Except.ok (iterate_aucDF_arma_opt s.big_classpixels s.percent s.test_binned draws
            s.error_sens iterations compute_full_auc)
      ∧ (s.percent.length : Int) = n_bins
      ∧ ∀ k : Nat, (k : Int) < n_bins →
          s.percent.getD k 0
              = ((bg_binned test_prediction prediction n_bins).countP
                  (fun b => decide ((n_bins : ℚ) - (k : ℚ) ≤ b)) : ℚ)
                / ((finite_elems prediction).length : ℚ)
            ∧ s.big_classpixels.col k
              = List.replicate s.n_samp.toNat ((n_bins - (k : Int) : Int) : ℚ) := by
  obtain ⟨s, hs, -, hM, -, hp, -⟩ := auc_parallel_setup_ok test_prediction prediction
    threshold sample_percentage n_bins hv
  have hn : 1 ≤ n_bins := le_of_lt hv.2.2.1
  have hne : bg_binned test_prediction prediction n_bins ≠ [] := by
    intro h
    have h1 := bg_binned_length test_prediction prediction n_bins
    rw [h, List.length_nil] at h1
    exact hv.2.2.2.1 (List.length_eq_zero.mp h1.symm)
  obtain ⟨hlen, hget⟩ := fractional_area_hist n_bins _ hn hne
    (bg_binned_range test_prediction prediction n_bins hn)
  have htpl := fill_template_is_template s.n_samp.toNat n_bins (by omega)
  rw [← hM] at htpl
  refine ⟨s, hs, by simp [auc_parallel, hs], ?_, ?_⟩
  · rw [hp, hlen]
    omega
  · intro k hk
    have hk2 : k < n_bins.toNat := by omega
    refine ⟨?_, htpl.2.2.2 k ?_⟩
    · rw [hp, hget k hk2, bg_binned_length]
    · have := htpl.2.1
      omega

theorem fractional_area_curve_witness :
    ∃ s, auc_parallel_setup [Dbl.fin (1 / 2), Dbl.fin 1] [Dbl.fin 0, Dbl.na] 5 50 3
        = Except.ok s
      ∧ auc_parallel [Dbl.fin (1 / 2), Dbl.fin 1] [Dbl.fin 0, Dbl.na] 5 50 2 true 3
          (fun _ => [0])
        = Except.ok (iterate_aucDF_arma_opt s.big_classpixels s.percent s.test_binned
            (fun _ => [0]) s.error_sens 2 true)
      ∧ (s.percent.length : Int) = 3
      ∧ ∀ k : Nat, (k : Int) < 3 →
          s.percent.getD k 0
              = ((bg_binned [Dbl.fin (1 / 2), Dbl.fin 1] [Dbl.fin 0, Dbl.na] 3).countP
                  (fun b => decide (((3 : Int) : ℚ) - (k : ℚ) ≤ b)) : ℚ)
                / ((finite_elems [Dbl.fin 0, Dbl.na]).length : ℚ)
            ∧ s.big_classpixels.col k
              = List.replicate s.n_samp.toNat (((3 : Int) - (k : Int) : Int) : ℚ) :=
  fractional_area_curve [Dbl.fin (1 / 2), Dbl.fin 1] [Dbl.fin 0, Dbl.na] 5 50 2 true 3
    (fun _ => [0])
    ⟨by simp, by simp, by decide, by simp [finite_elems], by simp [finite_elems],
      by simp [finite_elems, vec_max, vec_min, epsilon]; norm_num⟩

/-! ## calc_aucDF_arma: degenerate rows -/

theorem countP_range_getD (v : List ℚ) (p : ℚ → Bool) :
    (List.range v.length).countP (fun i => p (v.getD i 0)) = v.countP p := by
  induction v using List.reverseRecOn with
  | nil => simp
  | append_singleton t a ih =>
    rw [List.length_append, List.length_singleton, List.range_succ, List.countP_append,
      List.countP_append]
    congr 1
    · rw [← ih]
      apply List.countP_congr
      intro i hi
      have hi2 : i < t.length := List.mem_range.mp hi
      simp [List.getD_eq_getElem?_getD, List.getElem?_append_left hi2]
    · simp [List.getD_eq_getElem?_getD, List.countP_cons]

theorem find_gt_length (v : List ℚ) (t : ℚ) :
    (find_gt v t).length = v.countP (fun s => decide (s > t)) := by
  unfold find_gt
  rw [← List.countP_eq_length_filter]
  exact countP_range_getD v (fun s => decide (s > t))

theorem pauc_keep_idx_length (big_classpixels : Mat) (test_prediction : List ℚ)
    (rowsID : List Nat) (error_sens : ℚ) :
    (pauc_keep_idx big_classpixels test_prediction rowsID error_sens).length
      = n_qualifying big_classpixels test_prediction rowsID error_sens :=
  find_gt_length _ _

theorem calc_aucDF_arma_unfold (big_classpixels : Mat)
    (fractional_area test_prediction : List ℚ) (rowsID : List Nat) (error_sens : ℚ)
    (compute_full_auc : Bool) :
    calc_aucDF_arma big_classpixels fractional_area test_prediction rowsID error_sens
        compute_full_auc
      = if n_qualifying big_classpixels test_prediction rowsID error_sens < 2 then
          List.replicate 4 NA_REAL
        else if auc_pmodel_of big_classpixels fractional_area test_prediction rowsID
              error_sens = 0
            ∨ auc_prand_of big_classpixels fractional_area test_prediction rowsID
              error_sens = 0 then
          List.replicate 4 (Dbl.fin 0)
        else
          [if compute_full_auc then
              Dbl.fin (trap_roc
                (List.map Prod.fst (sort_rows (fractional_area.zip
                  (sensibility big_classpixels (elem test_prediction rowsID)))))
                (List.map Prod.snd (sort_rows (fractional_area.zip
                  (sensibility big_classpixels (elem test_prediction rowsID))))))
            else NA_REAL,
           Dbl.fin (auc_pmodel_of big_classpixels fractional_area test_prediction rowsID
              error_sens),
           Dbl.fin (auc_prand_of big_classpixels fractional_area test_prediction rowsID
              error_sens),
           if |auc_prand_of big_classpixels fractional_area test_prediction rowsID
                error_sens| > epsilon then
              Dbl.fin (auc_pmodel_of big_classpixels fractional_area test_prediction rowsID
                  error_sens
                / auc_prand_of big_classpixels fractional_area test_prediction rowsID
                  error_sens)
            else NA_REAL] := by
  rw [← pauc_keep_idx_length]
  rfl

/-- C9: in `calc_aucDF_arma`, for every drawn sample, when fewer than 2 bins have a
sensitivity strictly greater than error_sens the returned row is four NA markers, whatever
the compute_full_auc flag. -/
theorem calc_aucDF_arma_few_bins (big_classpixels : Mat)
    (fractional_area test_prediction : List ℚ) (rowsID : List Nat) (error_sens : ℚ)
    (compute_full_auc : Bool)
    (h : n_qualifying big_classpixels test_prediction rowsID error_sens < 2) :
    calc_aucDF_arma big_classpixels fractional_area test_prediction rowsID error_sens
        compute_full_auc
      = [NA_REAL, NA_REAL, NA_REAL, NA_REAL] := by
  rw [calc_aucDF_arma_unfold, if_pos h]
  rfl

theorem calc_aucDF_arma_few_bins_witness :
    n_qualifying ⟨1, 3, [[3], [2], [1]]⟩ [1] [0] (19 / 20) < 2
      ∧ calc_aucDF_arma ⟨1, 3, [[3], [2], [1]]⟩ [0, 1 / 2, 1] [1] [0] (19 / 20) true
        = [NA_REAL, NA_REAL, NA_REAL, NA_REAL]
      ∧ calc_aucDF_arma ⟨1, 3, [[3], [2], [1]]⟩ [0, 1 / 2, 1] [1] [0] (19 / 20) false
        = [NA_REAL, NA_REAL, NA_REAL, NA_REAL] := by
  have h : n_qualifying ⟨1, 3, [[3], [2], [1]]⟩ [1] [0] (19 / 20) < 2 := by
    simp [n_qualifying, sensibility, omission_col, elem, Mat.col, List.range_succ]
    norm_num
  exact ⟨h, calc_aucDF_arma_few_bins _ [0, 1 / 2, 1] [1] [0] (19 / 20) true h,
    calc_aucDF_arma_few_bins _ [0, 1 / 2, 1] [1] [0] (19 / 20) false h⟩

/-- C10: in `calc_aucDF_arma`, when at least 2 bins qualify and the model partial AUC or the
random partial AUC is exactly zero, the returned row is four zeros. -/
theorem calc_aucDF_arma_zero_row (big_classpixels : Mat)
    (fractional_area test_prediction : List ℚ) (rowsID : List Nat) (error_sens : ℚ)
    (compute_full_auc : Bool)
    (h2 : 2 ≤ n_qualifying big_classpixels test_prediction rowsID error_sens)
    (hz : auc_pmodel_of big_classpixels fractional_area test_prediction rowsID error_sens = 0
      ∨ auc_prand_of big_classpixels fractional_area test_prediction rowsID error_sens = 0) :
    calc_aucDF_arma big_classpixels fractional_area test_prediction rowsID error_sens
        compute_full_auc
      = [Dbl.fin 0, Dbl.fin 0, Dbl.fin 0, Dbl.fin 0] := by
  rw [calc_aucDF_arma_unfold, if_neg (by omega), if_pos hz]
  rfl

theorem calc_aucDF_arma_zero_row_witness :
    2 ≤ n_qualifying ⟨1, 3, [[3], [2], [1]]⟩ [3] [0] (19 / 20)
      ∧ auc_prand_of ⟨1, 3, [[3], [2], [1]]⟩ [1 / 2, 1 / 2, 1 / 2] [3] [0] (19 / 20) = 0
      ∧ calc_aucDF_arma ⟨1, 3, [[3], [2], [1]]⟩ [1 / 2, 1 / 2, 1 / 2] [3] [0] (19 / 20) true
        = [Dbl.fin 0, Dbl.fin 0, Dbl.fin 0, Dbl.fin 0] := by
  have hs : sensibility ⟨1, 3, [[3], [2], [1]]⟩ (elem [3] [0]) = [1, 1, 1] := by
    simp [sensibility, omission_col, elem, Mat.col, List.range_succ]
    norm_num
  have h2 : 2 ≤ n_qualifying ⟨1, 3, [[3], [2], [1]]⟩ [3] [0] (19 / 20) := by
    rw [n_qualifying, hs]
    simp [List.countP_cons]
    norm_num
  have hk : pauc_keep_idx ⟨1, 3, [[3], [2], [1]]⟩ [3] [0] (19 / 20) = [0, 1, 2] := by
    rw [pauc_keep_idx, hs]
    simp [find_gt, List.range_succ, List.filter_cons]
    norm_num
  have hz : auc_prand_of ⟨1, 3, [[3], [2], [1]]⟩ [1 / 2, 1 / 2, 1 / 2] [3] [0] (19 / 20)
      = 0 := by
    rw [auc_prand_of, pauc_table, hk, hs]
    simp [elem, sort_rows, trap_roc, memptr, List.range'_succ]
  exact ⟨h2, hz, calc_aucDF_arma_zero_row _ [1 / 2, 1 / 2, 1 / 2] [3] [0] (19 / 20) true h2
    (Or.inr hz)⟩

/-! ## calc_aucDF_arma: the ratio and the complete AUC -/

theorem calc_aucDF_arma_ratio_ok (big_classpixels : Mat)
    (fractional_area test_prediction : List ℚ) (rowsID : List Nat) (error_sens : ℚ)
    (compute_full_auc : Bool) :
    ratio_field_ok (calc_aucDF_arma big_classpixels fractional_area test_prediction rowsID
      error_sens compute_full_auc) := by
  rw [calc_aucDF_arma_unfold]
  split_ifs with h1 h2
  · exact ⟨NA_REAL, NA_REAL, NA_REAL, NA_REAL, rfl, Or.inl rfl, by simp [NA_REAL]⟩
  · exact ⟨Dbl.fin 0, Dbl.fin 0, Dbl.fin 0, Dbl.fin 0, rfl, Or.inr (Or.inl rfl), by simp⟩
  all_goals
    have hm : auc_pmodel_of big_classpixels fractional_area test_prediction rowsID error_sens
        ≠ 0 := fun h => h2 (Or.inl h)
    have hr : auc_prand_of big_classpixels fractional_area test_prediction rowsID error_sens
        ≠ 0 := fun h => h2 (Or.inr h)
    refine ⟨_, _, _, _, rfl, ?_, ?_⟩
  · exact Or.inr (Or.inr ⟨_, _, rfl, rfl, hr, rfl⟩)
  · simp [hm, hr]
  · exact Or.inl rfl
  · simp [hm, hr, NA_REAL]
  · exact Or.inr (Or.inr ⟨_, _, rfl, rfl, hr, rfl⟩)
  · simp [hm, hr]
  · exact Or.inl rfl
  · simp [hm, hr, NA_REAL]

theorem mem_iterate_aucDF_arma_opt (big_classpixels : Mat)
    (fractional_area test_prediction : List ℚ) (draws : Nat → List Nat) (error_sens : ℚ)
    (n_iterations : Nat) (compute_full_auc : Bool) (row : List Dbl)
    (h : row ∈ iterate_aucDF_arma_opt big_classpixels fractional_area test_prediction draws
      error_sens n_iterations compute_full_auc) :
    ∃ i, i < n_iterations ∧ row = calc_aucDF_arma big_classpixels fractional_area
      test_prediction (draws i) error_sens compute_full_auc := by
  simp only [iterate_aucDF_arma_opt, List.mem_map, List.mem_range] at h
  obtain ⟨i, hi, rfl⟩ := h
  exact ⟨i, hi, rfl⟩

/-- C11: every row produced by `calc_aucDF_arma`, hence every row of the table built by
`iterate_aucDF_arma_opt` and of the table returned by `auc_parallel`, has a ratio field that
is the missing marker, or zero, or model partial AUC / random partial AUC of the same row;
and the ratio is zero if and only if one of the two partial AUCs of the row is zero. -/
theorem ratio_field_of_every_row :
    (∀ (big_classpixels : Mat) (fractional_area test_prediction : List ℚ)
        (rowsID : List Nat) (error_sens : ℚ) (compute_full_auc : Bool),
        ratio_field_ok (calc_aucDF_arma big_classpixels fractional_area test_prediction
          rowsID error_sens compute_full_auc))
    ∧ (∀ (big_classpixels : Mat) (fractional_area test_prediction : List ℚ)
        (draws : Nat → List Nat) (error_sens : ℚ) (n_iterations : Nat)
        (compute_full_auc : Bool),
        ∀ row ∈ iterate_aucDF_arma_opt big_classpixels fractional_area test_prediction draws
          error_sens n_iterations compute_full_auc, ratio_field_ok row)
    ∧ (∀ (test_prediction prediction : List Dbl) (threshold sample_percentage : ℚ)
        (iterations : Nat) (compute_full_auc : Bool) (n_bins : Int) (draws : Nat → List Nat)
        (tbl : List (List Dbl)),
        auc_parallel test_prediction prediction threshold sample_percentage iterations
          compute_full_auc n_bins draws = Except.ok tbl →
        ∀ row ∈ tbl, ratio_field_ok row) := by
  refine ⟨calc_aucDF_arma_ratio_ok, ?_, ?_⟩
  · intro big_classpixels fractional_area test_prediction draws error_sens n_iterations
      compute_full_auc row hrow
    obtain ⟨i, -, rfl⟩ := mem_iterate_aucDF_arma_opt _ _ _ _ _ _ _ row hrow
    exact calc_aucDF_arma_ratio_ok _ _ _ _ _ _
  · intro test_prediction prediction threshold sample_percentage iterations compute_full_auc
      n_bins draws tbl htbl row hrow
    unfold auc_parallel at htbl
    split at htbl
    · exact absurd htbl (by simp)
    · injection htbl with htbl
      subst htbl
      obtain ⟨i, -, rfl⟩ := mem_iterate_aucDF_arma_opt _ _ _ _ _ _ _ row hrow
      exact calc_aucDF_arma_ratio_ok _ _ _ _ _ _

theorem ratio_field_of_every_row_witness :
    ratio_field_ok (calc_aucDF_arma ⟨1, 3, [[3], [2], [1]]⟩ [1 / 2, 1 / 2, 1] [2] [0]
      (19 / 20) true)
    ∧ ∀ row ∈ iterate_aucDF_arma_opt ⟨1, 3, [[3], [2], [1]]⟩ [1 / 2, 1 / 2, 1] [2]
        (fun _ => [0]) (19 / 20) 2 false, ratio_field_ok row :=
  ⟨ratio_field_of_every_row.1 ⟨1, 3, [[3], [2], [1]]⟩ [1 / 2, 1 / 2, 1] [2] [0]
      (19 / 20) true,
   ratio_field_of_every_row.2.1 ⟨1, 3, [[3], [2], [1]]⟩ [1 / 2, 1 / 2, 1] [2]
      (fun _ => [0]) (19 / 20) 2 false⟩

theorem auc_parallel_setup_flat_curve :
    auc_parallel_setup [Dbl.fin 0, Dbl.fin (1 / 2)] [Dbl.fin 1] 5 50 3
      = Except.ok ⟨⟨1, 3, [[3], [2], [1]]⟩, [1, 1, 1], [1, 2], 1, 19 / 20⟩ := by
  have hv : auc_valid [Dbl.fin 0, Dbl.fin (1 / 2)] [Dbl.fin 1] 3 :=
    ⟨by simp, by simp, by decide, by simp [finite_elems], by simp [finite_elems],
      by simp [finite_elems, vec_max, vec_min, epsilon]; norm_num⟩
  obtain ⟨s, hs, hn, hM, he, hp, ht⟩ := auc_parallel_setup_ok _ _ 5 50 3 hv
  rw [hs]
  have hn2 : s.n_samp = 1 := by
    rw [hn]
    exact derived_sample_size_50_of_2
  have hM2 : s.big_classpixels = ⟨1, 3, [[3], [2], [1]]⟩ := by
    rw [hM, hn2, fill_template_eq]
    simp [List.range_succ]
    norm_num
  have ht2 : s.test_binned = [1, 2] := by
    rw [ht]
    simp [test_binned, finite_elems, vec_max, vec_min, clamp_bin]
    norm_num
  have hp2 : s.percent = [1, 1, 1] := by
    rw [hp]
    simp [bg_binned, finite_elems, vec_max, vec_min, clamp_bin, hist_counts, hist_step,
      conv_to_int, fractional_area_of, cumsum, cumsum_from, epsilon]
    norm_num [cumsum_from]
  have he2 : s.error_sens = 19 / 20 := by
    rw [he]; norm_num
  cases s
  simp only at hn2 hM2 ht2 hp2 he2
  subst hn2 hM2 ht2 hp2 he2
  rfl

theorem flat_curve_sensibility :
    sensibility ⟨1, 3, [[3], [2], [1]]⟩ (elem [1, 2] [1]) = [0, 1, 1] := by
  simp [sensibility, omission_col, elem, Mat.col, List.range_succ]
  norm_num

theorem flat_curve_qualifying :
    2 ≤ n_qualifying ⟨1, 3, [[3], [2], [1]]⟩ [1, 2] [1] (19 / 20) := by
  rw [n_qualifying, flat_curve_sensibility]
  simp [List.countP_cons]
  norm_num

theorem flat_curve_keep_idx :
    pauc_keep_idx ⟨1, 3, [[3], [2], [1]]⟩ [1, 2] [1] (19 / 20) = [1, 2] := by
  rw [pauc_keep_idx, flat_curve_sensibility]
  simp [find_gt, List.range_succ, List.filter_cons]
  norm_num

theorem flat_curve_prand :
    auc_prand_of ⟨1, 3, [[3], [2], [1]]⟩ [1, 1, 1] [1, 2] [1] (19 / 20) = 0 := by
  rw [auc_prand_of, pauc_table, flat_curve_keep_idx, flat_curve_sensibility]
  simp [elem, sort_rows, trap_roc, memptr, List.range'_succ]

theorem calc_aucDF_arma_flat_curve (compute_full_auc : Bool) :
    calc_aucDF_arma ⟨1, 3, [[3], [2], [1]]⟩ [1, 1, 1] [1, 2] [1] (19 / 20) compute_full_auc
      = [Dbl.fin 0, Dbl.fin 0, Dbl.fin 0, Dbl.fin 0] := by
  have h2 := flat_curve_qualifying
  rw [calc_aucDF_arma_unfold, if_neg (by omega), if_pos (Or.inr flat_curve_prand)]
  rfl

theorem rising_curve_pmodel :
    auc_pmodel_of ⟨1, 3, [[3], [2], [1]]⟩ [0, 1 / 2, 1] [1, 2] [1] (19 / 20) = 1 / 2 := by
  rw [auc_pmodel_of, pauc_table, flat_curve_keep_idx, flat_curve_sensibility]
  simp [elem, sort_rows, trap_roc, memptr, List.range'_succ]
  norm_num

theorem rising_curve_prand :
    auc_prand_of ⟨1, 3, [[3], [2], [1]]⟩ [0, 1 / 2, 1] [1, 2] [1] (19 / 20) = 3 / 8 := by
  rw [auc_prand_of, pauc_table, flat_curve_keep_idx, flat_curve_sensibility]
  simp [elem, sort_rows, trap_roc, memptr, List.range'_succ]
  norm_num

/-- C12 as stated fails: with test values [0, 1/2], background [1], 3 bins, the sample that
draws index 1 and compute_full_auc = false, `auc_parallel` returns the single row of four
zeros, whose complete-AUC field is 0 and not the missing marker. -/
theorem complete_auc_zero_without_flag :
    auc_parallel [Dbl.fin 0, Dbl.fin (1 / 2)] [Dbl.fin 1] 5 50 1 false 3 (fun _ => [1])
        = Except.ok [[Dbl.fin 0, Dbl.fin 0, Dbl.fin 0, Dbl.fin 0]]
      ∧ calc_aucDF_arma ⟨1, 3, [[3], [2], [1]]⟩ [1, 1, 1] [1, 2] [1] (19 / 20) false
        = [Dbl.fin 0, Dbl.fin 0, Dbl.fin 0, Dbl.fin 0]
      ∧ Dbl.fin 0 ≠ NA_REAL := by
  refine ⟨?_, calc_aucDF_arma_flat_curve false, by simp [NA_REAL]⟩
  simp only [auc_parallel, auc_parallel_setup_flat_curve, iterate_aucDF_arma_opt]
  simp [List.range_succ, calc_aucDF_arma_flat_curve]

/-- C12 (as the code has it): with compute_full_auc = false, the row returned by
`calc_aucDF_arma` is the row of four zeros when at least 2 bins qualify and one of the two
partial AUCs is zero, and in every other case its complete-AUC field (column 1) is the
missing marker; so every row of the bootstrap table either starts with the missing marker
or is the row of four zeros. -/
theorem complete_auc_without_flag :
    (∀ (big_classpixels : Mat) (fractional_area test_prediction : List ℚ)
        (rowsID : List Nat) (error_sens : ℚ),
        (2 ≤ n_qualifying big_classpixels test_prediction rowsID error_sens
          ∧ (auc_pmodel_of big_classpixels fractional_area test_prediction rowsID
                error_sens = 0
              ∨ auc_prand_of big_classpixels fractional_area test_prediction rowsID
                error_sens = 0) →
          calc_aucDF_arma big_classpixels fractional_area test_prediction rowsID error_sens
            false = [Dbl.fin 0, Dbl.fin 0, Dbl.fin 0, Dbl.fin 0])
        ∧ (¬ (2 ≤ n_qualifying big_classpixels test_prediction rowsID error_sens
          ∧ (auc_pmodel_of big_classpixels fractional_area test_prediction rowsID
                error_sens = 0
              ∨ auc_prand_of big_classpixels fractional_area test_prediction rowsID
                error_sens = 0)) →
          ∃ m r ratio : Dbl,
            calc_aucDF_arma big_classpixels fractional_area test_prediction rowsID
              error_sens false = [NA_REAL, m, r, ratio]))
    ∧ (∀ (big_classpixels : Mat) (fractional_area test_prediction : List ℚ)
        (draws : Nat → List Nat) (error_sens : ℚ) (n_iterations : Nat),
        ∀ row ∈ iterate_aucDF_arma_opt big_classpixels fractional_area test_prediction draws
          error_sens n_iterations false,
          row = [Dbl.fin 0, Dbl.fin 0, Dbl.fin 0, Dbl.fin 0]
            ∨ ∃ m r ratio : Dbl, row = [NA_REAL, m, r, ratio]) := by
  have key : ∀ (big_classpixels : Mat) (fractional_area test_prediction : List ℚ)
      (rowsID : List Nat) (error_sens : ℚ),
      (2 ≤ n_qualifying big_classpixels test_prediction rowsID error_sens
        ∧ (auc_pmodel_of big_classpixels fractional_area test_prediction rowsID
              error_sens = 0
            ∨ auc_prand_of big_classpixels fractional_area test_prediction rowsID
              error_sens = 0) →
        calc_aucDF_arma big_classpixels fractional_area test_prediction rowsID error_sens
          false = [Dbl.fin 0, Dbl.fin 0, Dbl.fin 0, Dbl.fin 0])
      ∧ (¬ (2 ≤ n_qualifying big_classpixels test_prediction rowsID error_sens
        ∧ (auc_pmodel_of big_classpixels fractional_area test_prediction rowsID
              error_sens = 0
            ∨ auc_prand_of big_classpixels fractional_area test_prediction rowsID
              error_sens = 0)) →
        ∃ m r ratio : Dbl,
          calc_aucDF_arma big_classpixels fractional_area test_prediction rowsID
            error_sens false = [NA_REAL, m, r, ratio]) := by
    intro big_classpixels fractional_area test_prediction rowsID error_sens
    constructor
    · rintro ⟨h2, hz⟩
      rw [calc_aucDF_arma_unfold, if_neg (by omega), if_pos hz]
      rfl
    · intro hn
      rw [calc_aucDF_arma_unfold]
      by_cases h1 : n_qualifying big_classpixels test_prediction rowsID error_sens < 2
      · rw [if_pos h1]
        exact ⟨NA_REAL, NA_REAL, NA_REAL, rfl⟩
      · have h2 : ¬ (auc_pmodel_of big_classpixels fractional_area test_prediction rowsID
              error_sens = 0
            ∨ auc_prand_of big_classpixels fractional_area test_prediction rowsID
              error_sens = 0) := fun h => hn ⟨by omega, h⟩
        rw [if_neg h1, if_neg h2]
        exact ⟨_, _, _, rfl⟩
  refine ⟨key, ?_⟩
  intro big_classpixels fractional_area test_prediction draws error_sens n_iterations row hrow
  obtain ⟨i, -, rfl⟩ := mem_iterate_aucDF_arma_opt _ _ _ _ _ _ _ row hrow
  by_cases hc : 2 ≤ n_qualifying big_classpixels test_prediction (draws i) error_sens
      ∧ (auc_pmodel_of big_classpixels fractional_area test_prediction (draws i)
            error_sens = 0
          ∨ auc_prand_of big_classpixels fractional_area test_prediction (draws i)
            error_sens = 0)
  · exact Or.inl ((key _ _ _ _ _).1 hc)
  · exact Or.inr ((key _ _ _ _ _).2 hc)

theorem complete_auc_without_flag_witness :
    calc_aucDF_arma ⟨1, 3, [[3], [2], [1]]⟩ [1, 1, 1] [1, 2] [1] (19 / 20) false
        = [Dbl.fin 0, Dbl.fin 0, Dbl.fin 0, Dbl.fin 0]
      ∧ ∃ m r ratio : Dbl,
          calc_aucDF_arma ⟨1, 3, [[3], [2], [1]]⟩ [0, 1 / 2, 1] [1, 2] [1] (19 / 20) false
            = [NA_REAL, m, r, ratio] :=
  ⟨(complete_auc_without_flag.1 ⟨1, 3, [[3], [2], [1]]⟩ [1, 1, 1] [1, 2] [1] (19 / 20)).1
      ⟨flat_curve_qualifying, Or.inr flat_curve_prand⟩,
   (complete_auc_without_flag.1 ⟨1, 3, [[3], [2], [1]]⟩ [0, 1 / 2, 1] [1, 2] [1] (19 / 20)).2
      (by rw [rising_curve_pmodel, rising_curve_prand]; norm_num)⟩

/-! ## auc_parallel: the derived sample size -/

theorem test_binned_length (test_prediction prediction : List Dbl) (n_bins : Int) :
    (test_binned test_prediction prediction n_bins).length
      = (finite_elems test_prediction).length := by
  simp [test_binned]

theorem derived_sample_size_bounds (sample_percentage : ℚ) (m : Nat)
    (h0 : 0 ≤ sample_percentage) (h100 : sample_percentage ≤ 100) (hm1 : 1 ≤ m)
    (hm : m < 2 ^ 31) :
    0 < max 1 (static_cast_int
          ⌈round_double (round_double (sample_percentage / 100) * (m : ℚ))⌉)
      ∧ max 1 (static_cast_int
          ⌈round_double (round_double (sample_percentage / 100) * (m : ℚ))⌉) ≤ (m : Int) := by
  have hm53 : m < 2 ^ 53 := lt_trans hm (by norm_num)
  have hq0 : 0 ≤ sample_percentage / 100 := div_nonneg h0 (by norm_num)
  have hq1 : sample_percentage / 100 ≤ ((1 : Nat) : ℚ) := by
    rw [Nat.cast_one, div_le_one (by norm_num)]
    exact h100
  obtain ⟨hp0, hp1⟩ := round_double_bounds (sample_percentage / 100) 1 hq0 hq1 (by norm_num)
  rw [Nat.cast_one] at hp1
  have hmq : (0 : ℚ) ≤ (m : ℚ) := Nat.cast_nonneg m
  have hprod0 : 0 ≤ round_double (sample_percentage / 100) * (m : ℚ) := mul_nonneg hp0 hmq
  have hprod1 : round_double (sample_percentage / 100) * (m : ℚ) ≤ (m : ℚ) := by
    have := mul_le_mul_of_nonneg_right hp1 hmq
    simpa using this
  obtain ⟨hr0, hr1⟩ := round_double_bounds _ m hprod0 hprod1 hm53
  have hc0 : 0 ≤ ⌈round_double (round_double (sample_percentage / 100) * (m : ℚ))⌉ :=
    Int.ceil_nonneg hr0
  have hc1 : ⌈round_double (round_double (sample_percentage / 100) * (m : ℚ))⌉ ≤ (m : Int) :=
    Int.ceil_le.mpr (by exact_mod_cast hr1)
  have hmi : (m : Int) < 2 ^ 31 := by exact_mod_cast hm
  rw [static_cast_int_of_range _ (by omega) (by omega)]
  constructor
  · exact lt_of_lt_of_le Int.zero_lt_one (le_max_left _ _)
  · exact max_le (by exact_mod_cast hm1) hc1

/-- C17: on every input `auc_parallel` accepts, the sample size handed to the driver is
n_samp = max(1, ceil(sample_percentage / 100 * m)) evaluated as the source does (the
quotient and the product each rounded to a double, then `std::ceil` and
`static_cast<int>`), m being the number of cleaned test values (m >= 1 on such inputs);
for sample_percentage in [0, 100] and m within the range of int it satisfies
0 < n_samp <= m. -/
theorem n_samp_within_test_size (test_prediction prediction : List Dbl)
    (threshold sample_percentage : ℚ) (n_bins : Int)
    (hv : auc_valid test_prediction prediction n_bins) (h0 : 0 ≤ sample_percentage)
    (h100 : sample_percentage ≤ 100) (hm : (finite_elems test_prediction).length < 2 ^ 31) :
    ∃ s, auc_parallel_setup test_prediction prediction threshold sample_percentage n_bins
        = Except.ok s
      ∧ s.test_binned.length = (finite_elems test_prediction).length
      ∧ 1 ≤ (finite_elems test_prediction).length
      ∧ s.n_samp
        = max 1 (static_cast_int ⌈round_double (round_double (sample_percentage / 100)
            * ((finite_elems test_prediction).length : ℚ))⌉)
      ∧ 0 < s.n_samp
      ∧ s.n_samp ≤ ((finite_elems test_prediction).length : Int) := by
  obtain ⟨s, hs, hn, -, -, -, ht⟩ := auc_parallel_setup_ok test_prediction prediction
    threshold sample_percentage n_bins hv
  have hm1 : 1 ≤ (finite_elems test_prediction).length := List.length_pos.mpr hv.2.2.2.2.1
  obtain ⟨hpos, hle⟩ := derived_sample_size_bounds sample_percentage
    (finite_elems test_prediction).length h0 h100 hm1 hm
  refine ⟨s, hs, ?_, hm1, hn, ?_, ?_⟩
  · rw [ht, test_binned_length]
  · rw [hn]
    exact hpos
  · rw [hn]
    exact hle

theorem n_samp_within_test_size_witness :
    ∃ s, auc_parallel_setup
        [Dbl.fin 0, Dbl.fin 1, Dbl.fin 2, Dbl.fin 3, Dbl.fin 4, Dbl.fin 5, Dbl.fin 6, Dbl.fin 7,
        Dbl.fin 8, Dbl.fin 9, Dbl.fin 10, Dbl.fin 11, Dbl.fin 12, Dbl.fin 13, Dbl.fin 14,
        Dbl.fin 15, Dbl.fin 16, Dbl.fin 17, Dbl.fin 18, Dbl.fin 19, Dbl.fin 20, Dbl.fin 21,
        Dbl.fin 22, Dbl.fin 23, Dbl.fin 24]
        [Dbl.fin 0] 5 28 3 = Except.ok s
      ∧ s.test_binned.length = 25
      ∧ s.n_samp = 8
      ∧ 0 < s.n_samp
      ∧ s.n_samp ≤ 25 := by
  have hlen : (finite_elems
        [Dbl.fin 0, Dbl.fin 1, Dbl.fin 2, Dbl.fin 3, Dbl.fin 4, Dbl.fin 5, Dbl.fin 6, Dbl.fin 7,
        Dbl.fin 8, Dbl.fin 9, Dbl.fin 10, Dbl.fin 11, Dbl.fin 12, Dbl.fin 13, Dbl.fin 14,
        Dbl.fin 15, Dbl.fin 16, Dbl.fin 17, Dbl.fin 18, Dbl.fin 19, Dbl.fin 20, Dbl.fin 21,
        Dbl.fin 22, Dbl.fin 23, Dbl.fin 24]).length = 25 := by
    simp [finite_elems]
  obtain ⟨s, hs, ht, -, hn, hpos, hle⟩ := n_samp_within_test_size
    [Dbl.fin 0, Dbl.fin 1, Dbl.fin 2, Dbl.fin 3, Dbl.fin 4, Dbl.fin 5, Dbl.fin 6, Dbl.fin 7,
        Dbl.fin 8, Dbl.fin 9, Dbl.fin 10, Dbl.fin 11, Dbl.fin 12, Dbl.fin 13, Dbl.fin 14,
        Dbl.fin 15, Dbl.fin 16, Dbl.fin 17, Dbl.fin 18, Dbl.fin 19, Dbl.fin 20, Dbl.fin 21,
        Dbl.fin 22, Dbl.fin 23, Dbl.fin 24]
    [Dbl.fin 0] 5 28 3
    ⟨by simp, by simp, by decide, by simp [finite_elems], by simp [finite_elems],
      by simp [finite_elems, vec_max, vec_min, epsilon]; norm_num⟩
    (by norm_num) (by norm_num) (by rw [hlen]; norm_num)
  rw [hlen] at ht hn hle
  refine ⟨s, hs, ht, ?_, hpos, by exact_mod_cast hle⟩
  rw [hn]
  exact derived_sample_size_28_of_25.1

/-- C18 at a concrete call: with sample_percentage = 200 on two cleaned test values every
check of lines 434-477 passes, and the sample size derived at lines 508-510 and handed to
the driver is 4, above the 2 test values `arma::randperm` can draw from. -/
theorem oversized_sample_passes_validation :
    ∃ s, auc_parallel_setup [Dbl.fin 0, Dbl.fin (1 / 2)] [Dbl.fin 1] 5 200 3 = Except.ok s
      ∧ s.n_samp = 4 ∧ s.test_binned.length = 2
      ∧ (s.test_binned.length : Int) < s.n_samp := by
  have hv : auc_valid [Dbl.fin 0, Dbl.fin (1 / 2)] [Dbl.fin 1] 3 :=
    ⟨by simp, by simp, by decide, by simp [finite_elems], by simp [finite_elems],
      by simp [finite_elems, vec_max, vec_min, epsilon]; norm_num⟩
  obtain ⟨s, hs, hn, -, -, -, ht⟩ := auc_parallel_setup_ok _ _ 5 200 3 hv
  have hlen : (finite_elems [Dbl.fin 0, Dbl.fin (1 / 2)]).length = 2 := by
    simp [finite_elems]
  have hn4 : s.n_samp = 4 := by
    rw [hn, hlen]
    exact derived_sample_size_whole 200 2 2 (by norm_num) (by norm_num) (by norm_num)
  have ht2 : s.test_binned.length = 2 := by
    rw [ht, test_binned_length, hlen]
  refine ⟨s, hs, hn4, ht2, ?_⟩
  rw [ht2, hn4]
  norm_num

/-! ## calc_aucDF_arma: the sensitivity vector -/

theorem omission_col_replicate_sum (c : ℚ) (sampled : List ℚ) (n : Nat)
    (hn : sampled.length = n) :
    (omission_col (List.replicate n c) sampled).sum
      = (sampled.countP (fun v => decide (v < c)) : ℚ) := by
  induction sampled generalizing n with
  | nil => subst hn; simp [omission_col]
  | cons a t ih =>
    subst hn
    have := ih t.length rfl
    simp only [omission_col] at this
    simp only [omission_col, List.length_cons, List.replicate_succ, List.zipWith_cons_cons,
      List.sum_cons, this, List.countP_cons]
    by_cases h : c > a
    · have h2 : a < c := h
      simp [h, h2]; ring
    · have h2 : ¬ a < c := h
      simp [h, h2]

theorem countP_lt_add_countP_ge (c : ℚ) (sampled : List ℚ) :
    (sampled.countP (fun v => decide (v < c)) : ℚ)
        + (sampled.countP (fun v => decide (c ≤ v)) : ℚ)
      = (sampled.length : ℚ) := by
  have h3 : sampled.length = sampled.countP (fun v => decide (v < c))
      + sampled.countP (fun v => decide (c ≤ v)) := by
    rw [List.length_eq_countP_add_countP (fun v => decide (v < c)) sampled]
    congr 1
    apply List.countP_congr
    intro v _
    simp
  rw [h3]
  push_cast
  ring

/-- C19: in `calc_aucDF_arma`, with the template of n_samp rows and n_bins columns and a
drawn sample of n_samp > 0 binned test values, the sensitivity vector has length n_bins and
its entry at column k is 1 minus the fraction of sampled values strictly below the threshold
n_bins - k of that column, which is (number of sampled values >= n_bins - k) / n_samp. -/
theorem sensibility_of_template (big_classpixels : Mat) (n_samp : Nat) (n_bins : Int)
    (test_prediction : List ℚ) (rowsID : List Nat)
    (hM : is_template big_classpixels n_samp n_bins) (hlen : rowsID.length = n_samp)
    (hpos : 0 < n_samp) :
    ((sensibility big_classpixels (elem test_prediction rowsID)).length : Int) = n_bins
      ∧ ∀ k : Nat, (k : Int) < n_bins →
          (sensibility big_classpixels (elem test_prediction rowsID)).getD k 0
              = 1 - ((elem test_prediction rowsID).countP
                    (fun v => decide (v < (n_bins : ℚ) - (k : ℚ))) : ℚ) / (n_samp : ℚ)
            ∧ (sensibility big_classpixels (elem test_prediction rowsID)).getD k 0
              = ((elem test_prediction rowsID).countP
                    (fun v => decide ((n_bins : ℚ) - (k : ℚ) ≤ v)) : ℚ) / (n_samp : ℚ) := by
  obtain ⟨hr, hc, -, hcol⟩ := hM
  have hsl : (elem test_prediction rowsID).length = n_samp := by
    simp [elem, hlen]
  have hnq : ((n_samp : ℚ)) ≠ 0 := by
    have : 0 < (n_samp : ℚ) := by exact_mod_cast hpos
    exact ne_of_gt this
  refine ⟨by simp [sensibility, hc], ?_⟩
  intro k hk
  have hk2 : k < big_classpixels.n_cols := by omega
  have hget : (sensibility big_classpixels (elem test_prediction rowsID)).getD k 0
      = 1 - ((elem test_prediction rowsID).countP
            (fun v => decide (v < (n_bins : ℚ) - (k : ℚ))) : ℚ) / (n_samp : ℚ) := by
    simp only [sensibility, List.getD_eq_getElem?_getD, List.getElem?_map,
      List.getElem?_range hk2, Option.map_some', Option.getD_some]
    rw [hcol k hk2, omission_col_replicate_sum _ _ n_samp hsl, hr]
    push_cast
    rfl
  refine ⟨hget, ?_⟩
  rw [hget]
  have hsum := countP_lt_add_countP_ge ((n_bins : ℚ) - (k : ℚ)) (elem test_prediction rowsID)
  rw [hsl] at hsum
  have hge : ((elem test_prediction rowsID).countP
      (fun v => decide ((n_bins : ℚ) - (k : ℚ) ≤ v)) : ℚ)
      = (n_samp : ℚ) - ((elem test_prediction rowsID).countP
          (fun v => decide (v < (n_bins : ℚ) - (k : ℚ))) : ℚ) := by
    linarith
  rw [hge, sub_div, div_self hnq]

theorem sensibility_of_template_witness :
    ((sensibility (fill_template 2 3) (elem [1, 2, 3] [0, 2])).length : Int) = 3
      ∧ ∀ k : Nat, (k : Int) < 3 →
          (sensibility (fill_template 2 3) (elem [1, 2, 3] [0, 2])).getD k 0
              = 1 - ((elem [1, 2, 3] [0, 2]).countP
                    (fun v => decide (v < ((3 : Int) : ℚ) - (k : ℚ))) : ℚ) / ((2 : Nat) : ℚ)
            ∧ (sensibility (fill_template 2 3) (elem [1, 2, 3] [0, 2])).getD k 0
              = ((elem [1, 2, 3] [0, 2]).countP
                    (fun v => decide (((3 : Int) : ℚ) - (k : ℚ) ≤ v)) : ℚ) / ((2 : Nat) : ℚ) :=
  sensibility_of_template (fill_template 2 3) 2 3 [1, 2, 3] [0, 2]
    (fill_template_is_template 2 3 (by decide)) rfl (by decide)

/-! ## The fractional-area curve: shape -/

theorem hist_counts_sum (n_bins : Int) (bg : List ℚ)
    (hb : ∀ b ∈ bg, ∃ z : Int, b = (z : ℚ) ∧ 1 ≤ z ∧ z ≤ n_bins) :
    (hist_counts bg n_bins).length = n_bins.toNat
      ∧ (hist_counts bg n_bins).sum = (bg.length : Int) := by
  have hvals : ∀ v ∈ bg.map (fun b => conv_to_int b - 1), 0 ≤ v ∧ v < n_bins := by
    intro v hv
    obtain ⟨b, hbm, rfl⟩ := List.mem_map.mp hv
    obtain ⟨z, rfl, hz1, hz2⟩ := hb b hbm
    rw [conv_to_int_intCast]
    omega
  have hrep : (List.replicate n_bins.toNat (0 : Int)).length = n_bins.toNat := by simp
  obtain ⟨hlen, hsum⟩ := hist_fold n_bins _ _ hvals hrep
  have hcl : (hist_counts bg n_bins).length = n_bins.toNat := by
    unfold hist_counts
    rw [hlen, hrep]
  refine ⟨hcl, ?_⟩
  have h1 := hsum n_bins.toNat
  have h2 : (hist_counts bg n_bins).take n_bins.toNat = hist_counts bg n_bins :=
    List.take_of_length_le (le_of_eq hcl)
  unfold hist_counts at h2
  rw [h2] at h1
  unfold hist_counts
  rw [h1]
  have h3 : ((List.replicate n_bins.toNat (0 : Int)).take n_bins.toNat).sum = 0 := by
    simp [List.take_replicate]
  rw [h3, zero_add, List.countP_eq_length.mpr, List.length_map]
  intro v hv
  have := hvals v hv
  simp only [decide_eq_true_eq]
  omega

theorem cumsum_getLastD (v : List ℚ) (hne : v ≠ []) : (cumsum v).getLastD 0 = v.sum := by
  have hpos : 0 < v.length := List.length_pos.mpr hne
  rw [getLastD_eq_getD, cumsum, cumsum_from_length,
    cumsum_from_getD 0 v (v.length - 1) (by omega), zero_add]
  have : v.length - 1 + 1 = v.length := by omega
  rw [this, List.take_length]

theorem fractional_area_no_fallback (n_bins : Int) (bg : List ℚ) (hn : 1 ≤ n_bins)
    (hne : bg ≠ []) (hb : ∀ b ∈ bg, ∃ z : Int, b = (z : ℚ) ∧ 1 ≤ z ∧ z ≤ n_bins) :
    (cumsum ((hist_counts bg n_bins).map (fun (c : Int) => (c : ℚ)))).length > 0
      ∧ (cumsum ((hist_counts bg n_bins).map (fun (c : Int) => (c : ℚ)))).getLastD 0
          > epsilon := by
  obtain ⟨hcl, hsum⟩ := hist_counts_sum n_bins bg hb
  have hne2 : (hist_counts bg n_bins).map (fun (c : Int) => (c : ℚ)) ≠ [] := by
    intro h
    have h2 := congrArg List.length h
    rw [List.length_map, hcl, List.length_nil] at h2
    omega
  constructor
  · rw [cumsum, cumsum_from_length, List.length_map, hcl]
    omega
  · rw [cumsum_getLastD _ hne2, ← Int.cast_list_sum, hsum]
    have h1 : 0 < bg.length := List.length_pos.mpr hne
    have h2 : (1 : ℚ) ≤ ((bg.length : Int) : ℚ) := by exact_mod_cast h1
    have heps : epsilon < 1 := by unfold epsilon; norm_num
    exact lt_of_lt_of_le heps h2

theorem fractional_area_shape (n_bins : Int) (bg : List ℚ) (hn : 1 ≤ n_bins) (hne : bg ≠ [])
    (hb : ∀ b ∈ bg, ∃ z : Int, b = (z : ℚ) ∧ 1 ≤ z ∧ z ≤ n_bins) :
    (∀ j k : Nat, j ≤ k → (k : Int) < n_bins →
        (fractional_area_of (hist_counts bg n_bins)).getD j 0
          ≤ (fractional_area_of (hist_counts bg n_bins)).getD k 0)
      ∧ (∀ x ∈ fractional_area_of (hist_counts bg n_bins), 0 ≤ x ∧ x ≤ 1)
      ∧ (fractional_area_of (hist_counts bg n_bins)).getLastD 0 = 1 := by
  obtain ⟨hlen, hget⟩ := fractional_area_hist n_bins bg hn hne hb
  have hNpos : (0 : ℚ) < (bg.length : ℚ) := by
    have : 0 < bg.length := List.length_pos.mpr hne
    exact_mod_cast this
  refine ⟨?_, ?_, ?_⟩
  · intro j k hjk hk
    have hk2 : k < n_bins.toNat := by omega
    have hj2 : j < n_bins.toNat := by omega
    rw [hget j hj2, hget k hk2]
    apply div_le_div_of_nonneg_right _ (le_of_lt hNpos)
    have hmono : bg.countP (fun b => decide ((n_bins : ℚ) - (j : ℚ) ≤ b))
        ≤ bg.countP (fun b => decide ((n_bins : ℚ) - (k : ℚ) ≤ b)) := by
      apply List.countP_mono_left
      intro b _ hbj
      simp only [decide_eq_true_eq] at hbj ⊢
      have : (j : ℚ) ≤ (k : ℚ) := by exact_mod_cast hjk
      linarith
    exact_mod_cast hmono
  · intro x hx
    obtain ⟨k, hk, rfl⟩ := List.getElem_of_mem hx
    have hk2 : k < n_bins.toNat := by rw [← hlen]; exact hk
    have hx2 := hget k hk2
    rw [List.getD_eq_getElem _ _ hk] at hx2
    rw [hx2]
    constructor
    · exact div_nonneg (Nat.cast_nonneg _) (le_of_lt hNpos)
    · rw [div_le_one hNpos]
      exact_mod_cast List.countP_le_length _
  · have hnpos : 0 < n_bins.toNat := by omega
    rw [getLastD_eq_getD, hlen, hget (n_bins.toNat - 1) (by omega)]
    have hall : bg.countP (fun b => decide ((n_bins : ℚ) - ((n_bins.toNat - 1 : Nat) : ℚ) ≤ b))
        = bg.length := by
      rw [List.countP_eq_length]
      intro b hbm
      obtain ⟨z, rfl, hz1, hz2⟩ := hb b hbm
      simp only [decide_eq_true_eq]
      have h2 : ((n_bins.toNat - 1 : Nat) : Int) = n_bins - 1 := by omega
      have h3 : (((n_bins.toNat - 1 : Nat) : Int) : ℚ) = ((n_bins - 1 : Int) : ℚ) := by
        rw [h2]
      push_cast at h3
      have h5 : ((n_bins.toNat - 1 : Nat) : ℚ) = (n_bins : ℚ) - 1 := by simpa using h3
      rw [h5]
      have h4 : (1 : ℚ) ≤ (z : ℚ) := by exact_mod_cast hz1
      linarith
    rw [hall]
    exact div_self (ne_of_gt hNpos)

/-- C20: on every input `auc_parallel` accepts, the histogram counts sum to the number of
cleaned background values, the zero-total fallback of lines 501-504 is not taken (the guard
of line 499 holds), and the fractional-area curve is non-decreasing, has every entry in
[0, 1] and has last entry 1. -/
theorem fractional_area_curve_shape (test_prediction prediction : List Dbl)
    (threshold sample_percentage : ℚ) (n_bins : Int)
    (hv : auc_valid test_prediction prediction n_bins) :
    ∃ s, auc_parallel_setup test_prediction prediction threshold sample_percentage n_bins
        = Except.ok s
      ∧ (hist_counts (bg_binned test_prediction prediction n_bins) n_bins).sum
          = ((finite_elems prediction).length : Int)
      ∧ ((cumsum ((hist_counts (bg_binned test_prediction prediction n_bins) n_bins).map
            (fun (c : Int) => (c : ℚ)))).length > 0
          ∧ (cumsum ((hist_counts (bg_binned test_prediction prediction n_bins) n_bins).map
            (fun (c : Int) => (c : ℚ)))).getLastD 0 > epsilon)
      ∧ s.percent
          = (cumsum ((hist_counts (bg_binned test_prediction prediction n_bins) n_bins).map
              (fun (c : Int) => (c : ℚ)))).map
            (fun c => c / ((finite_elems prediction).length : ℚ))
      ∧ (∀ j k : Nat, j ≤ k → (k : Int) < n_bins →
          s.percent.getD j 0 ≤ s.percent.getD k 0)
      ∧ (∀ x ∈ s.percent, 0 ≤ x ∧ x ≤ 1)
      ∧ s.percent.getLastD 0 = 1 := by
  obtain ⟨s, hs, -, -, -, hp, -⟩ := auc_parallel_setup_ok test_prediction prediction
    threshold sample_percentage n_bins hv
  have hn : 1 ≤ n_bins := le_of_lt hv.2.2.1
  have hne : bg_binned test_prediction prediction n_bins ≠ [] := by
    intro h
    have h1 := bg_binned_length test_prediction prediction n_bins
    rw [h, List.length_nil] at h1
    exact hv.2.2.2.1 (List.length_eq_zero.mp h1.symm)
  have hb := bg_binned_range test_prediction prediction n_bins hn
  obtain ⟨-, hsum⟩ := hist_counts_sum n_bins _ hb
  have hcond := fractional_area_no_fallback n_bins _ hn hne hb
  obtain ⟨hmono, hunit, hlast⟩ := fractional_area_shape n_bins _ hn hne hb
  rw [bg_binned_length] at hsum
  refine ⟨s, hs, hsum, hcond, ?_, ?_, ?_, ?_⟩
  · rw [hp]
    have htot : (cumsum ((hist_counts (bg_binned test_prediction prediction n_bins)
        n_bins).map (fun (c : Int) => (c : ℚ)))).getLastD 0
        = ((finite_elems prediction).length : ℚ) := by
      have hne2 : (hist_counts (bg_binned test_prediction prediction n_bins) n_bins).map
          (fun (c : Int) => (c : ℚ)) ≠ [] := by
        intro h
        have h2 := hcond.1
        rw [h] at h2
        simp [cumsum, cumsum_from] at h2
      rw [cumsum_getLastD _ hne2, ← Int.cast_list_sum, hsum]
      simp
    simp only [fractional_area_of]
    rw [if_pos hcond, htot]
  · rw [hp]; exact hmono
  · rw [hp]; exact hunit
  · rw [hp]; exact hlast

theorem fractional_area_curve_shape_witness :
    ∃ s, auc_parallel_setup [Dbl.fin (1 / 2), Dbl.fin 1] [Dbl.fin 0, Dbl.na, Dbl.fin 1] 5 50 3
        = Except.ok s
      ∧ (hist_counts (bg_binned [Dbl.fin (1 / 2), Dbl.fin 1] [Dbl.fin 0, Dbl.na, Dbl.fin 1] 3)
            3).sum
          = ((finite_elems [Dbl.fin 0, Dbl.na, Dbl.fin 1]).length : Int)
      ∧ ((cumsum ((hist_counts (bg_binned [Dbl.fin (1 / 2), Dbl.fin 1]
            [Dbl.fin 0, Dbl.na, Dbl.fin 1] 3) 3).map (fun (c : Int) => (c : ℚ)))).length > 0
          ∧ (cumsum ((hist_counts (bg_binned [Dbl.fin (1 / 2), Dbl.fin 1]
            [Dbl.fin 0, Dbl.na, Dbl.fin 1] 3) 3).map (fun (c : Int) => (c : ℚ)))).getLastD 0
              > epsilon)
      ∧ s.percent
          = (cumsum ((hist_counts (bg_binned [Dbl.fin (1 / 2), Dbl.fin 1]
              [Dbl.fin 0, Dbl.na, Dbl.fin 1] 3) 3).map (fun (c : Int) => (c : ℚ)))).map
            (fun c => c / ((finite_elems [Dbl.fin 0, Dbl.na, Dbl.fin 1]).length : ℚ))
      ∧ (∀ j k : Nat, j ≤ k → (k : Int) < 3 → s.percent.getD j 0 ≤ s.percent.getD k 0)
      ∧ (∀ x ∈ s.percent, 0 ≤ x ∧ x ≤ 1)
      ∧ s.percent.getLastD 0 = 1 :=
  fractional_area_curve_shape [Dbl.fin (1 / 2), Dbl.fin 1] [Dbl.fin 0, Dbl.na, Dbl.fin 1]
    5 50 3
    ⟨by simp, by simp, by decide, by simp [finite_elems], by simp [finite_elems],
      by simp [finite_elems, vec_max, vec_min, epsilon]; norm_num⟩

/-! ## summarize_auc_results -/

theorem filter_map_range_getD {α β : Type} (l : List α) (d : α) (p : α → Bool) (f : α → β) :
    ((List.range l.length).filter (fun i => p (l.getD i d))).map (fun i => f (l.getD i d))
      = (l.filter p).map f := by
  induction l using List.reverseRecOn with
  | nil => simp
  | append_singleton t a ih =>
    have hleft : ∀ i ∈ List.range t.length, (t ++ [a]).getD i d = t.getD i d := by
      intro i hi
      have hi2 : i < t.length := List.mem_range.mp hi
      simp [List.getD_eq_getElem?_getD, List.getElem?_append_left hi2]
    have hlast : (t ++ [a]).getD t.length d = a := by
      simp [List.getD_eq_getElem?_getD]
    have hf : (List.range t.length).filter (fun i => p ((t ++ [a]).getD i d))
        = (List.range t.length).filter (fun i => p (t.getD i d)) := by
      apply List.filter_congr
      intro i hi
      rw [hleft i hi]
    have hm : ((List.range t.length).filter (fun i => p (t.getD i d))).map
          (fun i => f ((t ++ [a]).getD i d))
        = ((List.range t.length).filter (fun i => p (t.getD i d))).map
          (fun i => f (t.getD i d)) := by
      apply List.map_congr_left
      intro i hi
      rw [hleft i (List.mem_filter.mp hi).1]
    rw [List.length_append, List.length_singleton, List.range_succ, List.filter_append,
      List.map_append, hf, hm, ih, List.filter_append, List.map_append]
    congr 1
    by_cases hp : p a = true
    · simp [List.filter_cons, hlast, hp]
    · simp [List.filter_cons, hlast, hp]

theorem tbl_col_getD (tbl : List (List Dbl)) (j i : Nat) :
    (tbl_col tbl j).getD i NA_REAL = (tbl.getD i []).getD j NA_REAL := by
  simp only [tbl_col, List.getD_eq_getElem?_getD, List.getElem?_map]
  cases tbl[i]? <;> simp

theorem elem_dbl_find_finite (tbl : List (List Dbl)) (j : Nat) :
    elem_dbl (tbl_col tbl j) (find_finite (tbl_col tbl 3)) = tbl_col (finite_rows tbl) j := by
  have h := filter_map_range_getD tbl []
    (fun (row : List Dbl) => (row.getD 3 NA_REAL).is_finite)
    (fun (row : List Dbl) => row.getD j NA_REAL)
  simp only [elem_dbl, find_finite, tbl_col_getD, finite_rows]
  rw [show (tbl_col tbl 3).length = tbl.length by simp [tbl_col]]
  exact h

theorem summarize_auc_results_unfold (auc_results : List (List Dbl))
    (has_complete_auc : Bool) :
    summarize_auc_results auc_results has_complete_auc
      = if (finite_rows auc_results).length = 0 then
          [NA_REAL, NA_REAL, NA_REAL, NA_REAL, NA_REAL]
        else
          [if has_complete_auc then mean_dbl (tbl_col (finite_rows auc_results) 0)
            else NA_REAL,
           mean_dbl (tbl_col (finite_rows auc_results) 1),
           mean_dbl (tbl_col (finite_rows auc_results) 2),
           mean_dbl (tbl_col (finite_rows auc_results) 3),
           Dbl.fin (1 - ((tbl_col auc_results 3).countP Dbl.gt_one : ℚ)
              / (auc_results.length : ℚ))] := by
  have hl : (tbl_col (finite_rows auc_results) 3).length = (finite_rows auc_results).length := by
    simp [tbl_col]
  have hl2 : (tbl_col auc_results 3).length = auc_results.length := by simp [tbl_col]
  simp only [summarize_auc_results, elem_dbl_find_finite, hl, hl2, mul_one]

theorem finite_rows_eq_nil (tbl : List (List Dbl))
    (h : ∀ row ∈ tbl, (row.getD 3 NA_REAL).is_finite = false) : finite_rows tbl = [] := by
  unfold finite_rows
  rw [List.filter_eq_nil_iff]
  intro row hrow
  rw [h row hrow]
  simp

theorem finite_rows_ne_nil (tbl : List (List Dbl))
    (h : ∃ row ∈ tbl, (row.getD 3 NA_REAL).is_finite = true) : finite_rows tbl ≠ [] := by
  obtain ⟨row, hrow, hfin⟩ := h
  intro hnil
  have hmem : row ∈ finite_rows tbl := by
    unfold finite_rows
    exact List.mem_filter.mpr ⟨hrow, hfin⟩
  rw [hnil] at hmem
  exact absurd hmem (List.not_mem_nil row)

/-- C13: `summarize_auc_results` on a table in which no row has a finite ratio (in
particular when every ratio is the missing marker) returns five missing markers, for either
value of has_complete_auc. -/
theorem summarize_no_finite_ratio (auc_results : List (List Dbl)) (has_complete_auc : Bool)
    (h : ∀ row ∈ auc_results, (row.getD 3 NA_REAL).is_finite = false) :
    summarize_auc_results auc_results has_complete_auc
      = [NA_REAL, NA_REAL, NA_REAL, NA_REAL, NA_REAL] := by
  rw [summarize_auc_results_unfold, finite_rows_eq_nil auc_results h]
  rfl

theorem summarize_no_finite_ratio_witness :
    summarize_auc_results
        [[NA_REAL, NA_REAL, NA_REAL, NA_REAL], [NA_REAL, NA_REAL, NA_REAL, NA_REAL]] true
        = [NA_REAL, NA_REAL, NA_REAL, NA_REAL, NA_REAL]
      ∧ summarize_auc_results
        [[NA_REAL, NA_REAL, NA_REAL, NA_REAL], [NA_REAL, NA_REAL, NA_REAL, NA_REAL]] false
        = [NA_REAL, NA_REAL, NA_REAL, NA_REAL, NA_REAL] :=
  ⟨summarize_no_finite_ratio _ true (by simp [NA_REAL, Dbl.is_finite]),
   summarize_no_finite_ratio _ false (by simp [NA_REAL, Dbl.is_finite])⟩

/-- C14: for every table with at least one finite-ratio row, the fifth output of
`summarize_auc_results` is 1 - (number of rows, among all rows of the table, whose ratio is
> 1) / (number of rows); for a 100-row table with 60 ratios > 1 it is 2/5 = 0.40. -/
theorem summarize_fifth_output (auc_results : List (List Dbl)) (has_complete_auc : Bool)
    (h : ∃ row ∈ auc_results, (row.getD 3 NA_REAL).is_finite = true) :
    (summarize_auc_results auc_results has_complete_auc).getD 4 NA_REAL
        = Dbl.fin (1 - (auc_results.countP
            (fun (row : List Dbl) => (row.getD 3 NA_REAL).gt_one) : ℚ)
          / (auc_results.length : ℚ))
      ∧ (auc_results.length = 100 →
          auc_results.countP (fun (row : List Dbl) => (row.getD 3 NA_REAL).gt_one) = 60 →
          (summarize_auc_results auc_results has_complete_auc).getD 4 NA_REAL
            = Dbl.fin (2 / 5)) := by
  have hne : ¬ (finite_rows auc_results).length = 0 := by
    rw [List.length_eq_zero]
    exact finite_rows_ne_nil auc_results h
  have hcount : (tbl_col auc_results 3).countP Dbl.gt_one
      = auc_results.countP (fun (row : List Dbl) => (row.getD 3 NA_REAL).gt_one) := by
    rw [tbl_col, List.countP_map]
    rfl
  have hmain : (summarize_auc_results auc_results has_complete_auc).getD 4 NA_REAL
      = Dbl.fin (1 - (auc_results.countP
          (fun (row : List Dbl) => (row.getD 3 NA_REAL).gt_one) : ℚ)
        / (auc_results.length : ℚ)) := by
    rw [summarize_auc_results_unfold, if_neg hne, hcount]
    rfl
  refine ⟨hmain, ?_⟩
  intro hlen hc
  rw [hmain, hlen, hc]
  norm_num

theorem summarize_fifth_output_witness :
    (summarize_auc_results
        (List.replicate 60 [NA_REAL, Dbl.fin (1 / 2), Dbl.fin (1 / 4), Dbl.fin 2]
          ++ List.replicate 40 [NA_REAL, Dbl.fin (1 / 8), Dbl.fin (1 / 4), Dbl.fin (1 / 2)])
        false).getD 4 NA_REAL
      = Dbl.fin (2 / 5) :=
  (summarize_fifth_output
      (List.replicate 60 [NA_REAL, Dbl.fin (1 / 2), Dbl.fin (1 / 4), Dbl.fin 2]
        ++ List.replicate 40 [NA_REAL, Dbl.fin (1 / 8), Dbl.fin (1 / 4), Dbl.fin (1 / 2)])
      false
      ⟨[NA_REAL, Dbl.fin (1 / 2), Dbl.fin (1 / 4), Dbl.fin 2],
        by simp [List.replicate_succ], by simp [Dbl.is_finite]⟩).2
    (by simp)
    (by
      rw [List.countP_append, List.countP_replicate, List.countP_replicate]
      simp [Dbl.gt_one]
      norm_num)

theorem finite_elems_length (v : List Dbl) (h : ∀ d ∈ v, d.is_finite = true) :
    (finite_elems v).length = v.length := by
  induction v with
  | nil => rfl
  | cons d t ih =>
    have ht := ih (fun e he => h e (List.mem_cons_of_mem d he))
    have hd := h d (List.mem_cons_self d t)
    cases d with
    | fin q => simp [finite_elems, ht]
    | na => simp [Dbl.is_finite] at hd
    | pinf => simp [Dbl.is_finite] at hd
    | ninf => simp [Dbl.is_finite] at hd

theorem mean_dbl_of_finite (v : List Dbl) (h : ∀ d ∈ v, d.is_finite = true) :
    mean_dbl v = Dbl.fin (arith_mean (finite_elems v)) := by
  have hall : v.all Dbl.is_finite = true := List.all_eq_true.mpr h
  rw [mean_dbl, if_pos hall, arith_mean, finite_elems_length v h]

theorem finite_rows_ratio_finite (tbl : List (List Dbl)) :
    ∀ d ∈ tbl_col (finite_rows tbl) 3, d.is_finite = true := by
  intro d hd
  simp only [tbl_col, finite_rows, List.mem_map, List.mem_filter] at hd
  obtain ⟨row, ⟨-, hfin⟩, rfl⟩ := hd
  exact hfin

/-- C15: for every table with at least one finite-ratio row, outputs 2, 3 and 4 of
`summarize_auc_results` are the means of the model partial AUC, random partial AUC and ratio
columns over exactly the rows whose ratio is finite, and output 1 is the mean of the
complete-AUC column over the same rows when has_complete_auc is true and the missing marker
when it is false.  The mean of a column whose selected cells are all finite is their
arithmetic mean (sum divided by the number of selected rows); the selected ratio cells
always are. -/
theorem summarize_means (auc_results : List (List Dbl)) (has_complete_auc : Bool)
    (h : ∃ row ∈ auc_results, (row.getD 3 NA_REAL).is_finite = true) :
    (summarize_auc_results auc_results has_complete_auc).getD 1 NA_REAL
        = mean_dbl (tbl_col (finite_rows auc_results) 1)
      ∧ (summarize_auc_results auc_results has_complete_auc).getD 2 NA_REAL
        = mean_dbl (tbl_col (finite_rows auc_results) 2)
      ∧ (summarize_auc_results auc_results has_complete_auc).getD 3 NA_REAL
        = Dbl.fin (arith_mean (finite_elems (tbl_col (finite_rows auc_results) 3)))
      ∧ (summarize_auc_results auc_results has_complete_auc).getD 0 NA_REAL
        = (if has_complete_auc then mean_dbl (tbl_col (finite_rows auc_results) 0)
            else NA_REAL)
      ∧ ∀ j : Nat, (∀ d ∈ tbl_col (finite_rows auc_results) j, d.is_finite = true) →
          mean_dbl (tbl_col (finite_rows auc_results) j)
              = Dbl.fin ((finite_elems (tbl_col (finite_rows auc_results) j)).sum
                  / ((finite_rows auc_results).length : ℚ))
            ∧ (finite_elems (tbl_col (finite_rows auc_results) j)).length
              = (finite_rows auc_results).length := by
  have hne : ¬ (finite_rows auc_results).length = 0 := by
    rw [List.length_eq_zero]
    exact finite_rows_ne_nil auc_results h
  rw [summarize_auc_results_unfold, if_neg hne]
  refine ⟨rfl, rfl, ?_, rfl, ?_⟩
  · rw [← mean_dbl_of_finite _ (finite_rows_ratio_finite auc_results)]
    rfl
  · intro j hj
    have hl : (tbl_col (finite_rows auc_results) j).length = (finite_rows auc_results).length := by
      simp [tbl_col]
    rw [mean_dbl_of_finite _ hj, arith_mean, finite_elems_length _ hj, hl]
    exact ⟨rfl, rfl⟩

theorem summarize_means_example :
    summarize_auc_results
        [[Dbl.fin (4 / 5), Dbl.fin (1 / 2), Dbl.fin (1 / 4), Dbl.fin 2],
         [Dbl.fin 0, Dbl.fin 0, Dbl.fin 0, Dbl.fin 0],
         [NA_REAL, NA_REAL, NA_REAL, NA_REAL]] true
      = [Dbl.fin (2 / 5), Dbl.fin (1 / 4), Dbl.fin (1 / 8), Dbl.fin 1, Dbl.fin (2 / 3)] := by
  rw [summarize_auc_results_unfold]
  simp [finite_rows, tbl_col, mean_dbl, finite_elems, Dbl.is_finite, Dbl.gt_one, NA_REAL,
    List.countP_cons]
  norm_num

theorem summarize_means_witness :
    (summarize_auc_results
        [[Dbl.fin (4 / 5), Dbl.fin (1 / 2), Dbl.fin (1 / 4), Dbl.fin 2],
         [Dbl.fin 0, Dbl.fin 0, Dbl.fin 0, Dbl.fin 0],
         [NA_REAL, NA_REAL, NA_REAL, NA_REAL]] true).getD 1 NA_REAL
        = mean_dbl (tbl_col (finite_rows
        [[Dbl.fin (4 / 5), Dbl.fin (1 / 2), Dbl.fin (1 / 4), Dbl.fin 2],
         [Dbl.fin 0, Dbl.fin 0, Dbl.fin 0, Dbl.fin 0],
         [NA_REAL, NA_REAL, NA_REAL, NA_REAL]]) 1)
      ∧ (summarize_auc_results
        [[Dbl.fin (4 / 5), Dbl.fin (1 / 2), Dbl.fin (1 / 4), Dbl.fin 2],
         [Dbl.fin 0, Dbl.fin 0, Dbl.fin 0, Dbl.fin 0],
         [NA_REAL, NA_REAL, NA_REAL, NA_REAL]] true).getD 2 NA_REAL
        = mean_dbl (tbl_col (finite_rows
        [[Dbl.fin (4 / 5), Dbl.fin (1 / 2), Dbl.fin (1 / 4), Dbl.fin 2],
         [Dbl.fin 0, Dbl.fin 0, Dbl.fin 0, Dbl.fin 0],
         [NA_REAL, NA_REAL, NA_REAL, NA_REAL]]) 2)
      ∧ (summarize_auc_results
        [[Dbl.fin (4 / 5), Dbl.fin (1 / 2), Dbl.fin (1 / 4), Dbl.fin 2],
         [Dbl.fin 0, Dbl.fin 0, Dbl.fin 0, Dbl.fin 0],
         [NA_REAL, NA_REAL, NA_REAL, NA_REAL]] true).getD 3 NA_REAL
        = Dbl.fin (arith_mean (finite_elems (tbl_col (finite_rows
        [[Dbl.fin (4 / 5), Dbl.fin (1 / 2), Dbl.fin (1 / 4), Dbl.fin 2],
         [Dbl.fin 0, Dbl.fin 0, Dbl.fin 0, Dbl.fin 0],
         [NA_REAL, NA_REAL, NA_REAL, NA_REAL]]) 3)))
      ∧ (summarize_auc_results
        [[Dbl.fin (4 / 5), Dbl.fin (1 / 2), Dbl.fin (1 / 4), Dbl.fin 2],
         [Dbl.fin 0, Dbl.fin 0, Dbl.fin 0, Dbl.fin 0],
         [NA_REAL, NA_REAL, NA_REAL, NA_REAL]] true).getD 0 NA_REAL
        = mean_dbl (tbl_col (finite_rows
        [[Dbl.fin (4 / 5), Dbl.fin (1 / 2), Dbl.fin (1 / 4), Dbl.fin 2],
         [Dbl.fin 0, Dbl.fin 0, Dbl.fin 0, Dbl.fin 0],
         [NA_REAL, NA_REAL, NA_REAL, NA_REAL]]) 0) := by
  have h := summarize_means
    [[Dbl.fin (4 / 5), Dbl.fin (1 / 2), Dbl.fin (1 / 4), Dbl.fin 2],
         [Dbl.fin 0, Dbl.fin 0, Dbl.fin 0, Dbl.fin 0],
         [NA_REAL, NA_REAL, NA_REAL, NA_REAL]] true
    ⟨[Dbl.fin 0, Dbl.fin 0, Dbl.fin 0, Dbl.fin 0], by simp, by simp [Dbl.is_finite]⟩
  exact ⟨h.1, h.2.1, h.2.2.1, h.2.2.2.1⟩

/-- C16 at a concrete table: of 4 rows with ratios 2, 3/2, 1/2 and 3, the proportion of rows
with ratio > 1 is 3/4, and the fifth output of `summarize_auc_results` is 1/4. -/
theorem summarize_fifth_is_complement :
    (summarize_auc_results
        [[Dbl.fin (4 / 5), Dbl.fin (1 / 2), Dbl.fin (1 / 4), Dbl.fin 2],
         [Dbl.fin (4 / 5), Dbl.fin (3 / 8), Dbl.fin (1 / 4), Dbl.fin (3 / 2)],
         [Dbl.fin (4 / 5), Dbl.fin (1 / 8), Dbl.fin (1 / 4), Dbl.fin (1 / 2)],
         [Dbl.fin (4 / 5), Dbl.fin (3 / 4), Dbl.fin (1 / 4), Dbl.fin 3]] true).getD 4 NA_REAL
        = Dbl.fin (1 / 4)
      ∧ (([[Dbl.fin (4 / 5), Dbl.fin (1 / 2), Dbl.fin (1 / 4), Dbl.fin 2],
         [Dbl.fin (4 / 5), Dbl.fin (3 / 8), Dbl.fin (1 / 4), Dbl.fin (3 / 2)],
         [Dbl.fin (4 / 5), Dbl.fin (1 / 8), Dbl.fin (1 / 4), Dbl.fin (1 / 2)],
         [Dbl.fin (4 / 5), Dbl.fin (3 / 4), Dbl.fin (1 / 4), Dbl.fin 3]].countP
            (fun (row : List Dbl) => (row.getD 3 NA_REAL).gt_one) : ℚ) / (4 : ℚ) = 3 / 4)
      ∧ Dbl.fin (1 / 4) ≠ Dbl.fin (3 / 4) := by
  refine ⟨?_, ?_, ?_⟩
  · rw [summarize_auc_results_unfold]
    simp [finite_rows, tbl_col, Dbl.is_finite, Dbl.gt_one, List.countP_cons]
    norm_num
  · simp [Dbl.gt_one, List.countP_cons]
    norm_num
  · simp
    norm_num

/-! ## Binning: the clamp on values inside the range -/

theorem scaled_value_range (n_bins : Int) (min_val max_val v : ℚ) (hn : 2 ≤ n_bins)
    (hlt : min_val < max_val) (h1 : min_val ≤ v) (h2 : v ≤ max_val) :
    0 ≤ (v - min_val) * (((n_bins : ℚ) - 1) / (max_val - min_val))
      ∧ (v - min_val) * (((n_bins : ℚ) - 1) / (max_val - min_val)) ≤ (n_bins : ℚ) - 1 := by
  have hr : 0 < max_val - min_val := sub_pos.mpr hlt
  have hnq : (2 : ℚ) ≤ (n_bins : ℚ) := by exact_mod_cast hn
  have hs : 0 ≤ ((n_bins : ℚ) - 1) / (max_val - min_val) :=
    div_nonneg (by linarith) (le_of_lt hr)
  constructor
  · exact mul_nonneg (by linarith) hs
  · have h3 : (v - min_val) * (((n_bins : ℚ) - 1) / (max_val - min_val))
        ≤ (max_val - min_val) * (((n_bins : ℚ) - 1) / (max_val - min_val)) :=
      mul_le_mul_of_nonneg_right (by linarith) hs
    have h4 : (max_val - min_val) * (((n_bins : ℚ) - 1) / (max_val - min_val))
        = (n_bins : ℚ) - 1 := by
      field_simp
    linarith

/-- C21: over exact arithmetic, for n_bins >= 2, min < max and min <= v <= max, the floor of
(v - min) * scale with scale = (n_bins - 1) / (max - min) lies in [0, n_bins - 1], so the
clamped bin of `auc_parallel` equals the unclamped bin of `bigclass_matrix`; the minimum
maps to bin 1 and the maximum to bin n_bins. -/
theorem clamp_is_identity_in_range (n_bins : Int) (min_val max_val v : ℚ) (hn : 2 ≤ n_bins)
    (hlt : min_val < max_val) (h1 : min_val ≤ v) (h2 : v ≤ max_val) :
    0 ≤ ⌊(v - min_val) * (((n_bins : ℚ) - 1) / (max_val - min_val))⌋
      ∧ ⌊(v - min_val) * (((n_bins : ℚ) - 1) / (max_val - min_val))⌋ ≤ n_bins - 1
      ∧ clamp_bin n_bins ((v - min_val) * (((n_bins : ℚ) - 1) / (max_val - min_val)))
        = bigclass_bin min_val (((n_bins : ℚ) - 1) / (max_val - min_val)) v
      ∧ bigclass_bin min_val (((n_bins : ℚ) - 1) / (max_val - min_val)) min_val = 1
      ∧ clamp_bin n_bins ((min_val - min_val) * (((n_bins : ℚ) - 1) / (max_val - min_val)))
        = 1
      ∧ bigclass_bin min_val (((n_bins : ℚ) - 1) / (max_val - min_val)) max_val
        = (n_bins : ℚ)
      ∧ clamp_bin n_bins ((max_val - min_val) * (((n_bins : ℚ) - 1) / (max_val - min_val)))
        = (n_bins : ℚ) := by
  obtain ⟨hlo, hhi⟩ := scaled_value_range n_bins min_val max_val v hn hlt h1 h2
  have hr : max_val - min_val ≠ 0 := ne_of_gt (sub_pos.mpr hlt)
  have hf0 : 0 ≤ ⌊(v - min_val) * (((n_bins : ℚ) - 1) / (max_val - min_val))⌋ :=
    Int.floor_nonneg.mpr hlo
  have hf1 : ⌊(v - min_val) * (((n_bins : ℚ) - 1) / (max_val - min_val))⌋ ≤ n_bins - 1 := by
    have h3 : (⌊(v - min_val) * (((n_bins : ℚ) - 1) / (max_val - min_val))⌋ : ℚ)
        ≤ ((n_bins - 1 : Int) : ℚ) := by
      push_cast
      exact le_trans (Int.floor_le _) hhi
    exact_mod_cast h3
  have hclamp : ∀ w : ℚ, 0 ≤ ⌊w⌋ → ⌊w⌋ ≤ n_bins - 1 →
      clamp_bin n_bins w = (⌊w⌋ : ℚ) + 1 := by
    intro w hw0 hw1
    have c0 : (0 : ℚ) ≤ (⌊w⌋ : ℚ) := by exact_mod_cast hw0
    have c1 : (⌊w⌋ : ℚ) ≤ ((n_bins - 1 : Int) : ℚ) := by exact_mod_cast hw1
    simp only [clamp_bin]
    rw [min_eq_right c1, max_eq_right c0]
  have hmin : (min_val - min_val) * (((n_bins : ℚ) - 1) / (max_val - min_val)) = 0 := by
    rw [sub_self, zero_mul]
  have hmax : (max_val - min_val) * (((n_bins : ℚ) - 1) / (max_val - min_val))
      = ((n_bins - 1 : Int) : ℚ) := by
    push_cast
    field_simp
  refine ⟨hf0, hf1, ?_, ?_, ?_, ?_, ?_⟩
  · rw [hclamp _ hf0 hf1]
    simp only [bigclass_bin]
  · simp only [bigclass_bin]
    rw [hmin]
    simp
  · rw [hmin]
    simp [clamp_bin]
  · simp only [bigclass_bin]
    rw [hmax, Int.floor_intCast]
    push_cast
    ring
  · rw [hmax, hclamp _ (by rw [Int.floor_intCast]; omega) (by rw [Int.floor_intCast]),
      Int.floor_intCast]
    push_cast
    ring

theorem clamp_is_identity_in_range_witness :
    0 ≤ ⌊((7 / 10 : ℚ) - 0) * ((((5 : Int) : ℚ) - 1) / (1 - 0))⌋
      ∧ ⌊((7 / 10 : ℚ) - 0) * ((((5 : Int) : ℚ) - 1) / (1 - 0))⌋ ≤ 5 - 1
      ∧ clamp_bin 5 (((7 / 10 : ℚ) - 0) * ((((5 : Int) : ℚ) - 1) / (1 - 0)))
        = bigclass_bin 0 ((((5 : Int) : ℚ) - 1) / (1 - 0)) (7 / 10)
      ∧ bigclass_bin 0 ((((5 : Int) : ℚ) - 1) / (1 - 0)) 0 = 1
      ∧ clamp_bin 5 (((0 : ℚ) - 0) * ((((5 : Int) : ℚ) - 1) / (1 - 0))) = 1
      ∧ bigclass_bin 0 ((((5 : Int) : ℚ) - 1) / (1 - 0)) 1 = ((5 : Int) : ℚ)
      ∧ clamp_bin 5 (((1 : ℚ) - 0) * ((((5 : Int) : ℚ) - 1) / (1 - 0))) = ((5 : Int) : ℚ) :=
  clamp_is_identity_in_range 5 0 1 (7 / 10) (by decide) (by norm_num) (by norm_num)
    (by norm_num)

/-! ## trap_roc and the order of tied rows -/

theorem ascending_map_fst (tbl : List (ℚ × ℚ)) (h : ascending_in_x tbl) :
    (List.map Prod.fst tbl).Sorted (· ≤ ·) := by
  unfold ascending_in_x at h
  exact List.pairwise_map.mpr h

theorem trap_of_table_cons_cons (p q : ℚ × ℚ) (t : List (ℚ × ℚ)) :
    trap_of_table (p :: q :: t)
      = (1 / 2) * ((q.1 - p.1) * (q.2 + p.2)) + trap_of_table (q :: t) := by
  simp only [trap_of_table, List.map_cons]
  exact trap_roc_cons_cons _ _ _ _ _ _

theorem trap_of_table_bounds (p : ℚ × ℚ) (t : List (ℚ × ℚ))
    (hs : ascending_in_x (p :: t))
    (hx : ∀ r ∈ p :: t, r.1 ≤ 1)
    (hy : ∀ r ∈ p :: t, 0 ≤ r.2 ∧ r.2 ≤ 1) :
    0 ≤ trap_of_table (p :: t) ∧ trap_of_table (p :: t) ≤ 1 - p.1 := by
  induction t generalizing p with
  | nil =>
    have h1 := hx p (List.mem_cons_self p [])
    simp [trap_of_table, trap_roc]
    exact h1
  | cons q t ih =>
    have hpq : p.1 ≤ q.1 := List.rel_of_sorted_cons hs q (List.mem_cons_self q t)
    have hs2 : ascending_in_x (q :: t) := List.Sorted.of_cons hs
    obtain ⟨i1, i2⟩ := ih q hs2 (fun r hr => hx r (List.mem_cons_of_mem p hr))
      (fun r hr => hy r (List.mem_cons_of_mem p hr))
    obtain ⟨yp0, yp1⟩ := hy p (List.mem_cons_self p _)
    obtain ⟨yq0, yq1⟩ := hy q (List.mem_cons_of_mem p (List.mem_cons_self q t))
    rw [trap_of_table_cons_cons]
    have hd : 0 ≤ q.1 - p.1 := sub_nonneg.mpr hpq
    have hterm0 : 0 ≤ (q.1 - p.1) * (q.2 + p.2) := mul_nonneg hd (by linarith)
    have hterm1 : (q.1 - p.1) * (q.2 + p.2) ≤ (q.1 - p.1) * 2 :=
      mul_le_mul_of_nonneg_left (by linarith) hd
    constructor
    · linarith
    · linarith

theorem trap_of_table_unit (tbl : List (ℚ × ℚ)) (hs : ascending_in_x tbl)
    (hx : ∀ r ∈ tbl, 0 ≤ r.1 ∧ r.1 ≤ 1) (hy : ∀ r ∈ tbl, 0 ≤ r.2 ∧ r.2 ≤ 1) :
    0 ≤ trap_of_table tbl ∧ trap_of_table tbl ≤ 1 := by
  cases tbl with
  | nil => simp [trap_of_table, trap_roc]
  | cons p t =>
    obtain ⟨h0, h1⟩ := trap_of_table_bounds p t hs (fun r hr => (hx r hr).2) hy
    have hp := (hx p (List.mem_cons_self p t)).1
    exact ⟨h0, by linarith⟩

theorem trap_self_zero_imp (l : List (ℚ × ℚ)) (hs : ascending_in_x l)
    (hx : ∀ r ∈ l, 0 ≤ r.1)
    (hz : trap_roc (List.map Prod.fst l) (List.map Prod.fst l) = 0) :
    trap_of_table l = 0 := by
  induction l with
  | nil => simp [trap_of_table, trap_roc]
  | cons p t ih =>
    cases t with
    | nil => simp [trap_of_table, trap_roc]
    | cons q t =>
      have hpq : p.1 ≤ q.1 := List.rel_of_sorted_cons hs q (List.mem_cons_self q t)
      have hs2 : ascending_in_x (q :: t) := List.Sorted.of_cons hs
      have hx2 : ∀ r ∈ q :: t, 0 ≤ r.1 := fun r hr => hx r (List.mem_cons_of_mem p hr)
      have hp0 := hx p (List.mem_cons_self p _)
      have hq0 := hx q (List.mem_cons_of_mem p (List.mem_cons_self q t))
      simp only [List.map_cons] at hz
      rw [trap_roc_cons_cons] at hz
      have hrest0 : 0 ≤ trap_roc (q.1 :: List.map Prod.fst t) (q.1 :: List.map Prod.fst t) := by
        rw [trap_roc_self_telescope]
        have hlast : q.1 ≤ (q.1 :: List.map Prod.fst t).getLast (List.cons_ne_nil _ _) := by
          have hsorted := ascending_map_fst (q :: t) hs2
          simp only [List.map_cons] at hsorted
          rcases List.mem_cons.mp (List.getLast_mem (List.cons_ne_nil q.1 (List.map Prod.fst t)))
            with h | h
          · rw [h]
          · exact List.rel_of_sorted_cons hsorted _ h
        have h2 : q.1 ^ 2 ≤ (q.1 :: List.map Prod.fst t).getLast (List.cons_ne_nil _ _) ^ 2 :=
          pow_le_pow_left₀ hq0 hlast 2
        linarith
      have hterm0 : 0 ≤ (q.1 - p.1) * (q.1 + p.1) :=
        mul_nonneg (sub_nonneg.mpr hpq) (by linarith)
      have hterm : (q.1 - p.1) * (q.1 + p.1) = 0 := by linarith
      have hrest : trap_roc (q.1 :: List.map Prod.fst t) (q.1 :: List.map Prod.fst t) = 0 := by
        linarith
      have heq : q.1 - p.1 = 0 := by
        rcases mul_eq_zero.mp hterm with h | h
        · exact h
        · have : q.1 = 0 ∧ p.1 = 0 := ⟨by linarith, by linarith⟩
          rw [this.1, this.2, sub_self]
      have hrec : trap_of_table (q :: t) = 0 := by
        apply ih hs2 hx2
        simpa using hrest
      rw [trap_of_table_cons_cons, heq, hrec]
      ring

theorem sensibility_mem_unit (big_classpixels : Mat) (n_samp : Nat) (n_bins : Int)
    (sampled_pred : List ℚ) (hM : is_template big_classpixels n_samp n_bins)
    (hlen : sampled_pred.length = n_samp) (hpos : 0 < n_samp) :
    ∀ y ∈ sensibility big_classpixels sampled_pred, 0 ≤ y ∧ y ≤ 1 := by
  obtain ⟨hr, -, -, hcol⟩ := hM
  intro y hy
  simp only [sensibility, List.mem_map, List.mem_range] at hy
  obtain ⟨i, hi, rfl⟩ := hy
  rw [hcol i hi, omission_col_replicate_sum _ _ n_samp hlen, hr]
  have hn : (0 : ℚ) < (n_samp : ℚ) := by exact_mod_cast hpos
  have hc0 : (0 : ℚ) ≤ (sampled_pred.countP
      (fun v => decide (v < (((n_bins - (i : Int) : Int)) : ℚ))) : ℚ) := Nat.cast_nonneg _
  have hc1 : (sampled_pred.countP
      (fun v => decide (v < (((n_bins - (i : Int) : Int)) : ℚ))) : ℚ) ≤ (n_samp : ℚ) := by
    have := List.countP_le_length (fun v => decide (v < (((n_bins - (i : Int) : Int)) : ℚ)))
      (l := sampled_pred)
    rw [hlen] at this
    exact_mod_cast this
  have hq0 : 0 ≤ (sampled_pred.countP
      (fun v => decide (v < (((n_bins - (i : Int) : Int)) : ℚ))) : ℚ) / (n_samp : ℚ) :=
    div_nonneg hc0 (le_of_lt hn)
  have hq1 : (sampled_pred.countP
      (fun v => decide (v < (((n_bins - (i : Int) : Int)) : ℚ))) : ℚ) / (n_samp : ℚ) ≤ 1 :=
    (div_le_one hn).mpr hc1
  constructor <;> linarith

theorem elem_mem_unit (v : List ℚ) (idx : List Nat) (hv : ∀ x ∈ v, 0 ≤ x ∧ x ≤ 1) :
    ∀ x ∈ elem v idx, 0 ≤ x ∧ x ≤ 1 := by
  intro x hx
  simp only [elem, List.mem_map] at hx
  obtain ⟨i, -, rfl⟩ := hx
  by_cases hi : i < v.length
  · rw [List.getD_eq_getElem _ _ hi]
    exact hv _ (List.getElem_mem hi)
  · rw [List.getD_eq_default _ _ (not_lt.mp hi)]
    exact ⟨le_refl 0, zero_le_one⟩

theorem sort_rows_ascending (tbl : List (ℚ × ℚ)) : ascending_in_x (sort_rows tbl) := by
  haveI : IsTotal (ℚ × ℚ) (fun a b => a.1 ≤ b.1) := ⟨fun a b => le_total a.1 b.1⟩
  haveI : IsTrans (ℚ × ℚ) (fun a b => a.1 ≤ b.1) := ⟨fun _ _ _ h1 h2 => le_trans h1 h2⟩
  exact List.sorted_insertionSort (fun (a b : ℚ × ℚ) => a.1 ≤ b.1) tbl

theorem sort_rows_zip_mem (xs ys : List ℚ) (r : ℚ × ℚ) (hr : r ∈ sort_rows (xs.zip ys)) :
    r.1 ∈ xs ∧ r.2 ∈ ys := by
  have hperm : List.Perm (sort_rows (xs.zip ys)) (xs.zip ys) :=
    List.perm_insertionSort (fun (a b : ℚ × ℚ) => a.1 ≤ b.1) (xs.zip ys)
  have hmem : r ∈ xs.zip ys := hperm.mem_iff.mp hr
  have h := List.of_mem_zip (a := r.1) (b := r.2) hmem
  exact h

theorem trap_self_unit (tbl : List (ℚ × ℚ)) (hs : ascending_in_x tbl)
    (hx : ∀ r ∈ tbl, 0 ≤ r.1 ∧ r.1 ≤ 1) :
    0 ≤ trap_roc (List.map Prod.fst tbl) (List.map Prod.fst tbl)
      ∧ trap_roc (List.map Prod.fst tbl) (List.map Prod.fst tbl) ≤ 1 := by
  have heq : trap_of_table (tbl.map (fun (r : ℚ × ℚ) => (r.1, r.1)))
      = trap_roc (List.map Prod.fst tbl) (List.map Prod.fst tbl) := by
    simp [trap_of_table, List.map_map, Function.comp_def]
  rw [← heq]
  apply trap_of_table_unit
  · unfold ascending_in_x at hs ⊢
    exact List.pairwise_map.mpr hs
  · intro r hr
    obtain ⟨r0, hr0, rfl⟩ := List.mem_map.mp hr
    exact hx r0 hr0
  · intro r hr
    obtain ⟨r0, hr0, rfl⟩ := List.mem_map.mp hr
    exact hx r0 hr0

theorem pauc_table_mem_unit (big_classpixels : Mat) (n_samp : Nat) (n_bins : Int)
    (fractional_area test_prediction : List ℚ) (rowsID : List Nat) (error_sens : ℚ)
    (hM : is_template big_classpixels n_samp n_bins) (hlen : rowsID.length = n_samp)
    (hpos : 0 < n_samp) (hfa : ∀ x ∈ fractional_area, 0 ≤ x ∧ x ≤ 1) :
    ∀ r ∈ pauc_table big_classpixels fractional_area test_prediction rowsID error_sens,
      (0 ≤ r.1 ∧ r.1 ≤ 1) ∧ (0 ≤ r.2 ∧ r.2 ≤ 1) := by
  have hsens := sensibility_mem_unit big_classpixels n_samp n_bins
    (elem test_prediction rowsID) hM (by simp [elem, hlen]) hpos
  intro r hr
  obtain ⟨h1, h2⟩ := sort_rows_zip_mem _ _ r hr
  exact ⟨elem_mem_unit fractional_area _ hfa r.1 h1, elem_mem_unit _ _ hsens r.2 h2⟩

theorem auc_values_bounds (big_classpixels : Mat) (n_samp : Nat) (n_bins : Int)
    (fractional_area test_prediction : List ℚ) (rowsID : List Nat) (error_sens : ℚ)
    (hM : is_template big_classpixels n_samp n_bins) (hlen : rowsID.length = n_samp)
    (hpos : 0 < n_samp) (hfa : ∀ x ∈ fractional_area, 0 ≤ x ∧ x ≤ 1) :
    (0 ≤ auc_pmodel_of big_classpixels fractional_area test_prediction rowsID error_sens
        ∧ auc_pmodel_of big_classpixels fractional_area test_prediction rowsID error_sens ≤ 1)
      ∧ (0 ≤ auc_prand_of big_classpixels fractional_area test_prediction rowsID error_sens
        ∧ auc_prand_of big_classpixels fractional_area test_prediction rowsID error_sens ≤ 1)
      ∧ (0 ≤ trap_of_table (sort_rows (fractional_area.zip
            (sensibility big_classpixels (elem test_prediction rowsID))))
        ∧ trap_of_table (sort_rows (fractional_area.zip
            (sensibility big_classpixels (elem test_prediction rowsID)))) ≤ 1)
      ∧ (auc_prand_of big_classpixels fractional_area test_prediction rowsID error_sens = 0 →
          auc_pmodel_of big_classpixels fractional_area test_prediction rowsID error_sens
            = 0) := by
  have hsens := sensibility_mem_unit big_classpixels n_samp n_bins
    (elem test_prediction rowsID) hM (by simp [elem, hlen]) hpos
  have hmem := pauc_table_mem_unit big_classpixels n_samp n_bins fractional_area
    test_prediction rowsID error_sens hM hlen hpos hfa
  have hasc : ascending_in_x
      (pauc_table big_classpixels fractional_area test_prediction rowsID error_sens) :=
    sort_rows_ascending _
  refine ⟨?_, ?_, ?_, ?_⟩
  · exact trap_of_table_unit _ hasc (fun r hr => (hmem r hr).1) (fun r hr => (hmem r hr).2)
  · exact trap_self_unit _ hasc (fun r hr => (hmem r hr).1)
  · apply trap_of_table_unit _ (sort_rows_ascending _)
    · intro r hr
      exact hfa r.1 (sort_rows_zip_mem _ _ r hr).1
    · intro r hr
      exact hsens r.2 (sort_rows_zip_mem _ _ r hr).2
  · intro hz
    exact trap_self_zero_imp _ hasc (fun r hr => (hmem r hr).1.1) hz

theorem calc_aucDF_arma_cases (big_classpixels : Mat)
    (fractional_area test_prediction : List ℚ) (rowsID : List Nat) (error_sens : ℚ)
    (compute_full_auc : Bool) :
    calc_aucDF_arma big_classpixels fractional_area test_prediction rowsID error_sens
        compute_full_auc = [NA_REAL, NA_REAL, NA_REAL, NA_REAL]
      ∨ calc_aucDF_arma big_classpixels fractional_area test_prediction rowsID error_sens
        compute_full_auc = [Dbl.fin 0, Dbl.fin 0, Dbl.fin 0, Dbl.fin 0]
      ∨ (auc_prand_of big_classpixels fractional_area test_prediction rowsID error_sens ≠ 0
        ∧ ∃ c ratio : Dbl,
          calc_aucDF_arma big_classpixels fractional_area test_prediction rowsID error_sens
              compute_full_auc
            = [c,
               Dbl.fin (auc_pmodel_of big_classpixels fractional_area test_prediction rowsID
                 error_sens),
               Dbl.fin (auc_prand_of big_classpixels fractional_area test_prediction rowsID
                 error_sens),
               ratio]
          ∧ (c = NA_REAL
            ∨ c = Dbl.fin (trap_of_table (sort_rows (fractional_area.zip
                (sensibility big_classpixels (elem test_prediction rowsID))))))) := by
  rw [calc_aucDF_arma_unfold]
  by_cases h1 : n_qualifying big_classpixels test_prediction rowsID error_sens < 2
  · rw [if_pos h1]
    exact Or.inl rfl
  · rw [if_neg h1]
    by_cases h2 : auc_pmodel_of big_classpixels fractional_area test_prediction rowsID
          error_sens = 0
        ∨ auc_prand_of big_classpixels fractional_area test_prediction rowsID
          error_sens = 0
    · rw [if_pos h2]
      exact Or.inr (Or.inl rfl)
    · rw [if_neg h2]
      refine Or.inr (Or.inr ⟨fun h => h2 (Or.inr h), _, _, rfl, ?_⟩)
      cases compute_full_auc with
      | true => exact Or.inr rfl
      | false => exact Or.inl rfl

/-- C23: with the template of n_samp rows and n_bins columns, a drawn sample of n_samp > 0
values and a fractional-area curve with entries in [0, 1], every non-missing AUC value of
the row returned by `calc_aucDF_arma` (complete AUC, model partial AUC, random partial AUC)
lies in [0, 1]; the random partial AUC computed at line 259 is zero only if the model
partial AUC of line 258 is zero, and so is the random field of the row. -/
theorem auc_values_in_unit_interval (big_classpixels : Mat) (n_samp : Nat) (n_bins : Int)
    (fractional_area test_prediction : List ℚ) (rowsID : List Nat) (error_sens : ℚ)
    (compute_full_auc : Bool)
    (hM : is_template big_classpixels n_samp n_bins) (hlen : rowsID.length = n_samp)
    (hpos : 0 < n_samp) (hfa : ∀ x ∈ fractional_area, 0 ≤ x ∧ x ≤ 1) :
    (∀ q : ℚ, Dbl.fin q ∈ (calc_aucDF_arma big_classpixels fractional_area test_prediction
          rowsID error_sens compute_full_auc).take 3 → 0 ≤ q ∧ q ≤ 1)
      ∧ (auc_prand_of big_classpixels fractional_area test_prediction rowsID error_sens = 0 →
          auc_pmodel_of big_classpixels fractional_area test_prediction rowsID error_sens
            = 0)
      ∧ ((calc_aucDF_arma big_classpixels fractional_area test_prediction rowsID error_sens
            compute_full_auc).getD 2 NA_REAL = Dbl.fin 0 →
          (calc_aucDF_arma big_classpixels fractional_area test_prediction rowsID error_sens
            compute_full_auc).getD 1 NA_REAL = Dbl.fin 0) := by
  obtain ⟨hpm, hpr, hcomp, hzero⟩ := auc_values_bounds big_classpixels n_samp n_bins
    fractional_area test_prediction rowsID error_sens hM hlen hpos hfa
  have hcases := calc_aucDF_arma_cases big_classpixels fractional_area test_prediction
    rowsID error_sens compute_full_auc
  refine ⟨?_, hzero, ?_⟩
  · intro q hq
    rcases hcases with hrow | hrow | ⟨-, c, ratio, hrow, hc⟩
    · rw [hrow] at hq
      simp [NA_REAL] at hq
    · rw [hrow] at hq
      simp only [List.take_succ_cons, List.take_zero, List.mem_cons, List.mem_singleton,
        List.not_mem_nil, or_false, or_self] at hq
      rw [Dbl.fin.inj hq]
      exact ⟨le_refl 0, zero_le_one⟩
    · rw [hrow] at hq
      simp only [List.take_succ_cons, List.take_zero, List.mem_cons, List.mem_singleton,
        List.not_mem_nil, or_false] at hq
      rcases hq with hq | hq | hq
      · rcases hc with hc | hc
        · rw [hc] at hq
          simp [NA_REAL] at hq
        · rw [hc] at hq
          rw [Dbl.fin.inj hq]
          exact hcomp
      · rw [Dbl.fin.inj hq]
        exact hpm
      · rw [Dbl.fin.inj hq]
        exact hpr
  · intro h
    rcases hcases with hrow | hrow | ⟨hne, c, ratio, hrow, -⟩
    · rw [hrow] at h
      simp [NA_REAL] at h
    · rw [hrow]
      rfl
    · rw [hrow] at h
      simp only [List.getD_cons_succ, List.getD_cons_zero] at h
      exact absurd (Dbl.fin.inj h) hne

theorem auc_values_in_unit_interval_witness :
    (∀ q : ℚ, Dbl.fin q ∈ (calc_aucDF_arma (fill_template 2 3) [0, 1 / 2, 1] [2, 3] [0, 1]
          (19 / 20) true).take 3 → 0 ≤ q ∧ q ≤ 1)
      ∧ (auc_prand_of (fill_template 2 3) [0, 1 / 2, 1] [2, 3] [0, 1] (19 / 20) = 0 →
          auc_pmodel_of (fill_template 2 3) [0, 1 / 2, 1] [2, 3] [0, 1] (19 / 20) = 0)
      ∧ ((calc_aucDF_arma (fill_template 2 3) [0, 1 / 2, 1] [2, 3] [0, 1] (19 / 20)
            true).getD 2 NA_REAL = Dbl.fin 0 →
          (calc_aucDF_arma (fill_template 2 3) [0, 1 / 2, 1] [2, 3] [0, 1] (19 / 20)
            true).getD 1 NA_REAL = Dbl.fin 0) :=
  auc_values_in_unit_interval (fill_template 2 3) 2 3 [0, 1 / 2, 1] [2, 3] [0, 1] (19 / 20)
    true (fill_template_is_template 2 3 (by decide)) rfl (by decide)
    (by
      intro x hx
      simp only [List.mem_cons, List.mem_singleton, List.not_mem_nil, or_false] at hx
      rcases hx with rfl | rfl | rfl <;> norm_num)
